import Mathlib

/-!
# Verification of the qoi-py codec (`src/qoi.py`, `src/qoi2.py`)

Shallow embedding of the QOI encoder/decoder pair from the two source
drafts `qoi.py` and `qoi2.py`, and proofs about the spec's claims.

Modelling conventions (all justified where used):
* A Python `bytes` buffer is a `List Nat` whose elements are `< 256`.
* Both sources pack a pixel into one machine integer (`qoi.py` encoder:
  `(r<<24)|(g<<16)|(b<<8)|a`; `qoi2.py`: `(a<<24)|(r<<16)|(g<<8)|b`);
  for byte-valued components packing is injective, so we model a pixel
  as a four-field record `Px`.  Packed-integer equality corresponds to
  `Px` equality, the packed constant `0` of `qoi.py` to `Px 0 0 0 0`,
  and `0xFF000000` of `qoi2.py` to `Px 0 0 0 255`.
* Python `x & 63` on naturals is `x % 64`, `x & 0xFF` on a possibly
  negative int is the mathematical `mod 256`, `(b >> 4) & 3` for a byte
  is `b / 16 % 4`, and `(b & 0xC0) == tag` for `b < 256` is `b / 64 = t`
  with `tag = 64 * t`.  Bit-`or` of disjoint bit fields is addition.
-/

/-- An RGBA pixel; components are byte values (0..255). -/
structure Px where
  r : Nat
  g : Nat
  b : Nat
  a : Nat
deriving DecidableEq, Repr

/-- `(0,0,0,0)`: the `qoi.py` initial cache entry (packed `0`). -/
def pxZero : Px := ⟨0, 0, 0, 0⟩

/-- `(0,0,0,255)`: the initial previous pixel (packed `0xFF000000` in
`qoi2.py`'s `0xAARRGGBB` layout). -/
def pxInit : Px := ⟨0, 0, 0, 255⟩

/-- `(r*3 + g*5 + b*7 + a*11) & 63` — the color-cache hash (`& 63` is `% 64`). -/
def pxHash (p : Px) : Nat := (p.r * 3 + p.g * 5 + p.b * 7 + p.a * 11) % 64

/-- All components are byte values. -/
def pxBytes (p : Px) : Prop := p.r < 256 ∧ p.g < 256 ∧ p.b < 256 ∧ p.a < 256

instance : DecidablePred pxBytes := fun _ => by unfold pxBytes; infer_instance

/-- Group a raw buffer into RGBA pixels (`channels = 4` read loop of both
encoders).  `none` when the length is not a multiple of 4: Python raises
`IndexError` reading past the end of the buffer on a trailing partial pixel. -/
def toPixels4 : List Nat → Option (List Px)
  | [] => some []
  | r :: g :: b :: a :: rest => (toPixels4 rest).map (⟨r, g, b, a⟩ :: ·)
  | _ => none

/-- Group a raw buffer into pixels with `a = 255` (`channels = 3` read loop). -/
def toPixels3 : List Nat → Option (List Px)
  | [] => some []
  | r :: g :: b :: rest => (toPixels3 rest).map (⟨r, g, b, 255⟩ :: ·)
  | _ => none

/-- Serialize pixels as `R,G,B,A` bytes (decoder output, `out_channels = 4`). -/
def flatten4 : List Px → List Nat
  | [] => []
  | p :: rest => p.r :: p.g :: p.b :: p.a :: flatten4 rest

/-- Serialize pixels as `R,G,B` bytes (decoder output, 3-byte write path). -/
def flatten3 : List Px → List Nat
  | [] => []
  | p :: rest => p.r :: p.g :: p.b :: flatten3 rest

/-- Big-endian 32-bit serialization (`struct.pack '>I'`); faithful for
`n < 2^32` (`struct.pack` raises beyond that, and every claim's domain
keeps dimensions below `2^32`). -/
def be32 (n : Nat) : List Nat :=
  [n / 2 ^ 24 % 256, n / 2 ^ 16 % 256, n / 2 ^ 8 % 256, n % 256]

/-- Big-endian 32-bit read at offset `off` (`struct.unpack_from '>I'`). -/
def readBE32 (data : List Nat) (off : Nat) : Nat :=
  data.getD off 0 * 2 ^ 24 + data.getD (off + 1) 0 * 2 ^ 16 +
    data.getD (off + 2) 0 * 2 ^ 8 + data.getD (off + 3) 0

/-- The ASCII bytes of `b'qoif'`. -/
def qoiMagic : List Nat := [113, 111, 105, 102]

/-- The 8-byte end marker `QOI_PADDING`. -/
def endMarker : List Nat := [0, 0, 0, 0, 0, 0, 0, 1]

/-- The 14-byte header `>4sIIBB`. -/
def headerBytes (w h ch cs : Nat) : List Nat :=
  qoiMagic ++ be32 w ++ be32 h ++ [ch, cs]

/-- `QOI_PIXELS_MAX`. -/
def QOI_PIXELS_MAX : Nat := 400000000

/-! ## Encoder

`qoi2.py`'s per-pixel loop (lines 71–146) keeps one packed previous
pixel `px_prev`, used both for the run check (line 80) and — unpacked,
lines 103–107 — as the alpha/DIFF/LUMA base: a single `prev` field
suffices (`encLoop` below).  `qoi.py`'s loop (lines 79–216) keeps the
previous pixel *twice*: packed as `prev_px_int` for the run check
(line 91) and as the component registers `prev_r..prev_a` for the alpha
check and the diffs (lines 117 ff.).  The two are initialized
inconsistently (lines 55–56), and a run-absorbed pixel (`continue`)
updates neither, so the `qoi.py` state needs both fields (`encSteps`
below).  Packed pixels are modeled as `Px` records: both packings are
injective on byte-valued components. -/

/-- Single-prev predictor state (`qoi2.py`): 64-slot cache, previous
pixel, run counter. -/
structure EncState where
  cache : List Px
  prev : Px
  run : Nat
deriving DecidableEq, Repr

/-- Bytes emitted for one non-run pixel `p` after a cache miss
(DIFF / LUMA / RGB / RGBA selection; `qoi.py` lines 117–151, `qoi2.py`
lines 109–141).  Differences are Python ints (no wraparound); with the
guards' bounds the source's bit-ors of disjoint fields are written as
sums. -/
def opBytes (prev p : Px) : List Nat :=
  if p.a = prev.a then
    let vr : Int := (p.r : Int) - prev.r
    let vg : Int := (p.g : Int) - prev.g
    let vb : Int := (p.b : Int) - prev.b
    if -2 ≤ vr ∧ vr ≤ 1 ∧ -2 ≤ vg ∧ vg ≤ 1 ∧ -2 ≤ vb ∧ vb ≤ 1 then
      [(0x40 + (vr + 2) * 16 + (vg + 2) * 4 + (vb + 2)).toNat]
    else
      let vgr := vr - vg
      let vgb := vb - vg
      if -32 ≤ vg ∧ vg ≤ 31 ∧ -8 ≤ vgr ∧ vgr ≤ 7 ∧ -8 ≤ vgb ∧ vgb ≤ 7 then
        [(0x80 + (vg + 32)).toNat, ((vgr + 8) * 16 + (vgb + 8)).toNat]
      else
        [0xFE, p.r, p.g, p.b]
  else
    [0xFF, p.r, p.g, p.b, p.a]

/-- `qoi2.py`'s encoding loop (lines 71–146), returning the final
predictor state and the emitted body bytes.  The `rest = []` test is the
source's `px_pos + channels >= px_end` (flush the run at the final
pixel). -/
def encLoop : EncState → List Px → EncState × List Nat
  | s, [] => (s, [])
  | s, p :: rest =>
    if p = s.prev then
      -- run += 1; flush when run hits 62 or this is the last pixel
      if s.run + 1 = 62 ∨ rest = [] then
        let (f, out) := encLoop ⟨s.cache, s.prev, 0⟩ rest
        (f, (0xC0 + s.run) :: out)
      else
        encLoop ⟨s.cache, s.prev, s.run + 1⟩ rest
    else
      let flush : List Nat := if s.run ≠ 0 then [0xC0 + (s.run - 1)] else []
      let h := pxHash p
      if s.cache.getD h pxZero = p then
        let (f, out) := encLoop ⟨s.cache, p, 0⟩ rest
        (f, flush ++ h :: out)
      else
        let (f, out) := encLoop ⟨s.cache.set h p, p, 0⟩ rest
        (f, flush ++ opBytes s.prev p ++ out)

/-- Dual-prev predictor state (`qoi.py`): `prevInt` is `prev_px_int`
(kept unpacked — the packing `(r<<24)|(g<<16)|(b<<8)|a` of line 89 is
injective on byte pixels), `prev` is the component registers
`prev_r..prev_a` of line 55. -/
structure EncStatePy where
  cache : List Px
  prevInt : Px
  prev : Px
  run : Nat
deriving DecidableEq, Repr

/-- `qoi.py` line 56: `prev_px_int = (255 << 24)`.  Under the encoder's
own packing `(r << 24) | (g << 16) | (b << 8) | a` (line 89) this is the
pixel `(255,0,0,0)` — *not* the `(0,0,0,255)` held by the component
registers (line 55), whose packing would be `0x000000FF`. -/
def prevPxInt : Px := ⟨255, 0, 0, 0⟩

/-- `qoi.py`'s encoding loop (lines 80–154; the channels-3 loop of lines
160–216 is the same algorithm with `a = 255`, supplied here by
`toPixels3`).  The run check compares against `prevInt` (line 91); the
opcode bytes are computed against `prev` (lines 117 ff.); a run-absorbed
pixel updates neither (`continue`, line 97), every other pixel sets both
to itself (lines 111–112, 153–154).  `rest = []` is the source's
`i == last_pixel_index`. -/
def encSteps : EncStatePy → List Px → EncStatePy × List Nat
  | s, [] => (s, [])
  | s, p :: rest =>
    if p = s.prevInt then
      -- run += 1; flush when run hits 62 or this is the last pixel
      if s.run + 1 = 62 ∨ rest = [] then
        let (f, out) := encSteps ⟨s.cache, s.prevInt, s.prev, 0⟩ rest
        (f, (0xC0 + s.run) :: out)
      else
        encSteps ⟨s.cache, s.prevInt, s.prev, s.run + 1⟩ rest
    else
      let flush : List Nat := if s.run ≠ 0 then [0xC0 + (s.run - 1)] else []
      let h := pxHash p
      if s.cache.getD h pxZero = p then
        let (f, out) := encSteps ⟨s.cache, p, p, 0⟩ rest
        (f, flush ++ h :: out)
      else
        let (f, out) := encSteps ⟨s.cache.set h p, p, p, 0⟩ rest
        (f, flush ++ opBytes s.prev p ++ out)

/-- A consistent dual-prev state (both previous-pixel fields agree).
`qoi.py` reaches such states after its first non-run-absorbed pixel. -/
def toPy (s : EncState) : EncStatePy := ⟨s.cache, s.prev, s.prev, s.run⟩

/-- Initial encoder state of `qoi.py`: `index = [0] * 64` (line 49),
component registers `(0,0,0,255)` (line 55), run check against
`prev_px_int = (255,0,0,0)` (line 56). -/
def encInit : EncStatePy := ⟨List.replicate 64 pxZero, prevPxInt, pxInit, 0⟩

/-- Initial encoder state of `qoi2.py`: `index` slots `0xFF000000` and
`px_prev = 0xFF000000` (lines 59–63), both the pixel `(0,0,0,255)` under
its `0xAARRGGBB` packing (line 77). -/
def enc2Init : EncState := ⟨List.replicate 64 pxInit, pxInit, 0⟩

/-- `QOIEncoder.encode` of `qoi.py` (lines 25–221).  The loop runs over
the *actual* buffer length (`total_bytes = len(pixels)`, line 70).
`none` models the `(b'', 0)` validation return (lines 27–31) and a
Python exception: a partial trailing pixel, or overflow of the
preallocated `max_size = 14 + w*h*5 + 8` output buffer (line 34). -/
def qoiEncode (pixels : List Nat) (w h ch cs : Nat) : Option (List Nat) :=
  if w = 0 ∨ h = 0 ∨ ch < 3 ∨ 4 < ch ∨ 1 < cs ∨ QOI_PIXELS_MAX / w ≤ h then
    none
  else
    match (if ch = 4 then toPixels4 pixels else toPixels3 pixels) with
    | none => none
    | some l =>
      let body := (encSteps encInit l).2
      if 14 + body.length ≤ 14 + w * h * 5 + 8 then
        some (headerBytes w h ch cs ++ body ++ endMarker)
      else
        none

/-- `QOIEncoder.encode` of `qoi2.py` (lines 33–152).  Its loop runs to
`px_end = width * height * channels` (lines 68–71) regardless of the
buffer length: on a shorter buffer the reads `pixels[px_pos + …]` raise
`IndexError` (`none`); bytes beyond `px_end` are never read (`take`). -/
def qoi2Encode (pixels : List Nat) (w h ch cs : Nat) : Option (List Nat) :=
  if w = 0 ∨ h = 0 ∨ ch < 3 ∨ 4 < ch ∨ 1 < cs ∨ QOI_PIXELS_MAX / w ≤ h then
    none
  else if pixels.length < w * h * ch then
    none
  else
    match (if ch = 4 then toPixels4 (pixels.take (w * h * ch))
           else toPixels3 (pixels.take (w * h * ch))) with
    | none => none
    | some l =>
      let body := (encLoop enc2Init l).2
      if 14 + body.length ≤ 14 + w * h * 5 + 8 then
        some (headerBytes w h ch cs ++ body ++ endMarker)
      else
        none

/-! ## Decoder (shared loop body of `qoi.py` and `qoi2.py`)

The per-pixel decode loops (`qoi.py` lines 264–305, `qoi2.py` lines
200–259) are the same algorithm: both guard the opcode read with
`p < data_len` (`data_len = len(data) - 8`), both update the color cache
unconditionally after *every* opcode — including RUN — and both leave the
state untouched when the opcode region is exhausted. -/

/-- Decoder state: 64-slot cache, current pixel, run counter, cursor. -/
structure DecState where
  cache : List Px
  px : Px
  run : Nat
  pos : Nat
deriving DecidableEq, Repr

/-- Opcode dispatch at cursor `p`: the new pixel, the new run counter and
the new cursor (the `elif` chain on `b1`; `qoi.py` lines 269–296). -/
def decDispatch (data : List Nat) (s : DecState) (p : Nat) : Px × Nat × Nat :=
  let b1 := data.getD p 0
  if b1 = 0xFE then
    -- QOI_OP_RGB: alpha kept
    (⟨data.getD (p+1) 0, data.getD (p+2) 0, data.getD (p+3) 0, s.px.a⟩, 0, p + 4)
  else if b1 = 0xFF then
    -- QOI_OP_RGBA
    (⟨data.getD (p+1) 0, data.getD (p+2) 0, data.getD (p+3) 0,
      data.getD (p+4) 0⟩, 0, p + 5)
  else if b1 / 64 = 0 then
    -- QOI_OP_INDEX: whole-pixel copy from cache[b1 & 63]
    (s.cache.getD (b1 % 64) pxZero, 0, p + 1)
  else if b1 / 64 = 1 then
    -- QOI_OP_DIFF: (x + d - 2) & 0xFF  ≡  (x + d + 254) % 256
    (⟨(s.px.r + b1 / 16 % 4 + 254) % 256,
      (s.px.g + b1 / 4 % 4 + 254) % 256,
      (s.px.b + b1 % 4 + 254) % 256, s.px.a⟩, 0, p + 1)
  else if b1 / 64 = 2 then
    -- QOI_OP_LUMA: vg = (b1 & 63) - 32; (x + vg - 8 + nib) & 0xFF
    let b2 := data.getD (p+1) 0
    (⟨(s.px.r + b1 % 64 + b2 / 16 % 16 + 216) % 256,
      (s.px.g + b1 % 64 + 224) % 256,
      (s.px.b + b1 % 64 + b2 % 16 + 216) % 256, s.px.a⟩, 0, p + 2)
  else if b1 / 64 = 3 then
    -- QOI_OP_RUN: run = b1 & 63 (pixel unchanged)
    (s.px, b1 % 64, p + 1)
  else
    -- unreachable for byte data (b1 < 256); totality fallback
    (s.px, 0, p + 1)

/-- One iteration of the decode loop (the emitted pixel is the `px` field
of the returned state).  Reads use `getD _ 0`: the cursor invariant keeps
every read index below the buffer length, so the total model agrees with
Python's partial indexing. -/
def decStep (data : List Nat) (dl : Nat) (s : DecState) : DecState :=
  if s.run ≠ 0 then
    { s with run := s.run - 1 }
  else if s.pos < dl then
    let next := decDispatch data s s.pos
    -- unconditional cache update (runs for every opcode, RUN included)
    ⟨s.cache.set (pxHash next.1) next.1, next.1, next.2.1, next.2.2⟩
  else
    s

/-- Run the decode loop for `n` output pixels; returns the emitted pixels
and the final state. -/
def decodeN (data : List Nat) (dl : Nat) : Nat → DecState → List Px × DecState
  | 0, s => ([], s)
  | n + 1, s =>
    let t := decStep data dl s
    let (l, f) := decodeN data dl n t
    (t.px :: l, f)

/-- Initial decoder state of `qoi.py` (`index = [0] * 64`). -/
def decInit : DecState := ⟨List.replicate 64 pxZero, pxInit, 0, 14⟩

/-- Initial decoder state of `qoi2.py` (`index` slots `0xFF000000`). -/
def dec2Init : DecState := ⟨List.replicate 64 pxInit, pxInit, 0, 14⟩

/-- Assemble the output buffer from the decoded pixels.  `qoi.py` (and
`qoi2.py`) preallocate `w*h*oc` bytes and write 4 bytes per pixel when
`oc = 4`, else 3 bytes per pixel; when `oc < 3` (and at least one pixel)
the 3-byte writes run past the buffer and Python raises `IndexError`,
modeled as `none`.  `3 * n ≤ n * oc` states exactly that all write
indices `3k, 3k+1, 3k+2` (`k < n`) are in bounds. -/
def assemble (oc n : Nat) (pxs : List Px) : Option (List Nat) :=
  if oc = 4 then
    some (flatten4 pxs)
  else if 3 * n ≤ n * oc then
    some (flatten3 pxs ++ List.replicate (n * oc - 3 * n) 0)
  else
    none

/-- `QOIDecoder.decode` of `qoi.py`: header checks are only length,
magic, and nonzero dimensions (lines 226–233). -/
def qoiDecode (data : List Nat) (channels : Nat) :
    Option (List Nat × Nat × Nat × Nat × Nat) :=
  -- header fields: w = readBE32 data 4, h = readBE32 data 8,
  -- desc_channels = data[12], colorspace = data[13]
  if data.length < 22 then none
  else if data.take 4 ≠ qoiMagic ∨ readBE32 data 4 = 0 ∨ readBE32 data 8 = 0
  then none
  else
    (assemble (if channels ≠ 0 then channels else data.getD 12 0)
        (readBE32 data 4 * readBE32 data 8)
        (decodeN data (data.length - 8)
          (readBE32 data 4 * readBE32 data 8) decInit).1).map
      (fun buf => (buf, readBE32 data 4, readBE32 data 8, data.getD 12 0,
        data.getD 13 0))

/-- `QOIDecoder.decode` of `qoi2.py`: full header validation
(lines 162–177), opaque-black initial cache. -/
def qoi2Decode (data : List Nat) (channels : Nat) :
    Option (List Nat × Nat × Nat × Nat × Nat) :=
  if data.length < 22 then none
  else if data.take 4 ≠ qoiMagic then none
  else if readBE32 data 4 = 0 ∨ readBE32 data 8 = 0 ∨
      data.getD 12 0 < 3 ∨ 4 < data.getD 12 0 ∨ 1 < data.getD 13 0 ∨
      QOI_PIXELS_MAX / readBE32 data 4 ≤ readBE32 data 8
  then none
  else
    (assemble (if channels = 0 then data.getD 12 0 else channels)
        (readBE32 data 4 * readBE32 data 8)
        (decodeN data (data.length - 8)
          (readBE32 data 4 * readBE32 data 8) dec2Init).1).map
      (fun buf => (buf, readBE32 data 4, readBE32 data 8, data.getD 12 0,
        data.getD 13 0))

/-! ## Specification-side definitions (for comparison with the code) -/

/-- The cache contents claimed by the spec's invariant: the most recently
consumed pixel whose hash is `h`, else the initial `(0,0,0,0)`. -/
def claimCache (l : List Px) (h : Nat) : Px :=
  ((l.filter (fun p => pxHash p = h)).getLast?).getD pxZero

/-- The cache contents actually maintained by the `qoi.py` encoder: the
most recently consumed pixel with hash `h` that was *not* absorbed into
a run, else the initial `(0,0,0,0)`.  The fold state is (run-check
pixel, slot value); the initial run-check pixel is the encoder's
`prev_px_int = (255,0,0,0)`, so a pixel is absorbed exactly when it
equals its predecessor — or, for the very first pixel, `(255,0,0,0)`. -/
def encCacheSpec (l : List Px) (h : Nat) : Px :=
  (l.foldl
    (fun (st : Px × Px) p =>
      (p, if p ≠ st.1 ∧ pxHash p = h then p else st.2))
    (prevPxInt, pxZero)).2

/-- The bytes the encoder emits for a maximal stretch of `t ≥ 1` pixels
equal to the previous pixel: `⌊(t-1)/62⌋` full `RUN(61) = 0xFD` chunks
followed by `RUN((t-1) mod 62)`. -/
def runBytes (t : Nat) : List Nat :=
  List.replicate ((t - 1) / 62) 0xFD ++ [0xC0 + (t - 1) % 62]

/-! ## Simulation relation between `qoi.py` encoder and decoder states

The decoder writes its cache after *every* opcode, RUN included, while
the encoder never writes during a run; the asymmetric initial state
(`cache` all `(0,0,0,0)`, previous pixel `(0,0,0,255)`) makes that write
visible exactly once: a RUN opcode that precedes every other opcode puts
`(0,0,0,255)` into slot 53 on the decoder side only.  The relation below
captures the two caches being equal except possibly for that one slot,
and `prevSync` records that the encoder's slot for the previous pixel is
either up to date or still in the untouched initial configuration. -/

/-- Decoder cache vs encoder cache: equal slotwise, except slot 53 may
hold `(0,0,0,255)` on the decoder side while the encoder still has the
initial `(0,0,0,0)` there. -/
def cacheRel (ce cd : List Px) : Prop :=
  ∀ i, i < 64 →
    (cd.getD i pxZero = ce.getD i pxZero ∨
      (i = 53 ∧ ce.getD i pxZero = pxZero ∧ cd.getD i pxZero = pxInit))

/-- The encoder's slot for the previous pixel holds the previous pixel,
unless the run color is still the initial `(0,0,0,255)` with its slot 53
untouched. -/
def prevSync (ce : List Px) (prev : Px) : Prop :=
  ce.getD (pxHash prev) pxZero = prev ∨
    (prev = pxInit ∧ ce.getD 53 pxZero = pxZero)

/-! ## List helper lemmas -/

theorem listGetD_set_self {α : Type} (l : List α) (i : Nat) (v d : α)
    (h : i < l.length) : (l.set i v).getD i d = v := by
  induction l generalizing i with
  | nil => simp at h
  | cons x xs ih =>
    cases i with
    | zero => rfl
    | succ j => simpa [List.set, List.getD] using ih j (by simpa using h)

theorem listGetD_set_ne {α : Type} (l : List α) (i j : Nat) (v d : α)
    (hij : i ≠ j) : (l.set i v).getD j d = l.getD j d := by
  induction l generalizing i j with
  | nil => rfl
  | cons x xs ih =>
    cases i with
    | zero => cases j with
      | zero => exact absurd rfl hij
      | succ j => rfl
    | succ i => cases j with
      | zero => rfl
      | succ j =>
        simpa [List.set, List.getD] using ih i j (by omega)

theorem listSet_getD_self {α : Type} (l : List α) (i : Nat) (d : α)
    (h : i < l.length) : l.set i (l.getD i d) = l := by
  induction l generalizing i with
  | nil => rfl
  | cons x xs ih =>
    cases i with
    | zero => rfl
    | succ j => simpa [List.set, List.getD] using ih j (by simpa using h)

theorem drop_eq_cons_getD {α : Type} (data : List α) (pos : Nat) (x : α)
    (l : List α) (d : α) (h : data.drop pos = x :: l) :
    data.getD pos d = x ∧ data.drop (pos + 1) = l := by
  induction data generalizing pos with
  | nil => simp at h
  | cons y ys ih =>
    cases pos with
    | zero =>
      simp only [List.drop] at h
      cases h
      exact ⟨rfl, rfl⟩
    | succ p =>
      simp only [List.drop] at h
      simpa [List.getD] using ih p h

theorem getD_of_lt_length_append {α : Type} (l t : List α) (i : Nat) (d : α)
    (h : i < l.length) : (l ++ t).getD i d = l.getD i d :=
  List.getD_append l t d i h

/-! ## Basic decode-loop lemmas -/

/-- Unfolding equation for one decode-loop iteration. -/
theorem decodeN_succ (data : List Nat) (dl n : Nat) (s : DecState) :
    decodeN data dl (n + 1) s =
      ((decStep data dl s).px :: (decodeN data dl n (decStep data dl s)).1,
        (decodeN data dl n (decStep data dl s)).2) := rfl

/-- The decode loop emits exactly one pixel per iteration. -/
theorem decodeN_length (data : List Nat) (dl : Nat) :
    ∀ (n : Nat) (s : DecState), (decodeN data dl n s).1.length = n := by
  intro n
  induction n with
  | zero => intro s; rfl
  | succ m ih => intro s; simp [decodeN, ih]

/-- A pending run of `k` pixels is drained before anything else happens:
the loop emits `k` copies of the current pixel, leaving cache and cursor
untouched. -/
theorem decodeN_drain (data : List Nat) (dl : Nat) :
    ∀ (k m : Nat) (c : List Px) (px : Px) (pos : Nat),
      decodeN data dl (k + m) ⟨c, px, k, pos⟩ =
        ((List.replicate k px ++ (decodeN data dl m ⟨c, px, 0, pos⟩).1),
          (decodeN data dl m ⟨c, px, 0, pos⟩).2) := by
  intro k
  induction k with
  | zero => intro m c px pos; simp
  | succ j ih =>
    intro m c px pos
    have hstep : decStep data dl ⟨c, px, j + 1, pos⟩ = ⟨c, px, j, pos⟩ := by
      simp [decStep]
    have harith : j + 1 + m = (j + m) + 1 := by omega
    rw [harith, decodeN_succ, hstep, ih m c px pos]
    simp [List.replicate_succ]

/-- Once the cursor has reached the end of the opcode region, every
remaining output pixel is a copy of the current pixel and the state no
longer changes (`qoi.py` lines 266–268: neither branch applies... the
`elif p < data_len` guard fails, so only the emit runs; a pending run
also keeps emitting the same pixel). -/
theorem decodeN_exhausted (data : List Nat) (dl : Nat) :
    ∀ (m : Nat) (c : List Px) (px : Px) (run pos : Nat), dl ≤ pos →
      (decodeN data dl m ⟨c, px, run, pos⟩).1 = List.replicate m px := by
  intro m
  induction m with
  | zero => intro c px run pos _; rfl
  | succ j ih =>
    intro c px run pos hpos
    cases run with
    | zero =>
      have hstep : decStep data dl ⟨c, px, 0, pos⟩ = ⟨c, px, 0, pos⟩ := by
        simp [decStep, Nat.not_lt.mpr hpos]
      simp [decodeN, hstep, ih c px 0 pos hpos, List.replicate_succ]
    | succ k =>
      have hstep : decStep data dl ⟨c, px, k + 1, pos⟩ = ⟨c, px, k, pos⟩ := by
        simp [decStep]
      simp [decodeN, hstep, ih c px k pos hpos, List.replicate_succ]

/-! ## Concrete counterexamples and evaluations -/

/-- C2: the spec's normative cache initialization — every slot `(0,0,0,0)`,
so the 1×1 RGBA image `[00 00 00 00]` encodes to the one-byte body `0x00`
(INDEX 0).  `qoi.py` conforms; `qoi2.py` initializes every slot to opaque
black `0xFF000000 = (0,0,0,255)` and instead emits the five-byte RGBA body
`FF 00 00 00 00` on the same input: the code of `qoi2.py` contradicts the
spec's normative initialization (which the spec itself flags as a
deviation producing non-interoperable output). -/
theorem c2_cache_init_eval :
    encInit.cache = List.replicate 64 pxZero ∧
    qoiEncode [0, 0, 0, 0] 1 1 4 0 =
      some (headerBytes 1 1 4 0 ++ [0x00] ++ endMarker) ∧
    enc2Init.cache = List.replicate 64 pxInit ∧
    qoi2Encode [0, 0, 0, 0] 1 1 4 0 =
      some (headerBytes 1 1 4 0 ++ [0xFF, 0, 0, 0, 0] ++ endMarker) := by
  refine ⟨rfl, by decide, rfl, by decide⟩

/-- C3 counterexample: a syntactically well-formed stream for a 1×2 image
whose opcode region is empty.  Two pixels are still owing, no run is in
progress, and the opcode region is exhausted — yet `qoi.py`'s decode does
*not* fail: it returns a pixel buffer (copies of the current pixel). -/
theorem c3_truncated_returns_buffer :
    qoiDecode (headerBytes 1 2 4 0 ++ endMarker) 0 =
      some ([0, 0, 0, 255, 0, 0, 0, 255], 1, 2, 4, 0) := by decide

/-- C4 counterexample: decoding a RUN opcode does change the `qoi.py`
decoder's cache.  On the very first opcode `0xC1` (RUN, length 2) the
step writes the current pixel `(0,0,0,255)` into slot
`hash(0,0,0,255) = 53`, which until then held `(0,0,0,0)`. -/
theorem c4_run_writes_cache :
    (headerBytes 1 2 4 0 ++ [0xC1] ++ endMarker).getD 14 0 = 0xC1 ∧
    (decStep (headerBytes 1 2 4 0 ++ [0xC1] ++ endMarker) 15 decInit).run = 1 ∧
    (decStep (headerBytes 1 2 4 0 ++ [0xC1] ++ endMarker) 15 decInit).cache ≠
      decInit.cache := by decide

/-- C5 counterexample: `qoi.py`'s header parse accepts a channels byte of
7 (∉ {3,4}) — it checks only length, magic and nonzero dimensions — and
decode returns a buffer instead of failing. -/
theorem c5_channels7_accepted :
    qoiDecode (headerBytes 1 1 7 0 ++ endMarker) 0 =
      some ([0, 0, 0, 0, 0, 0, 0], 1, 1, 7, 0) := by decide

/-- C6 counterexample: `qoi.py`'s encoder performs no buffer-size
validation.  An empty pixel buffer with declared dimensions 1×1, channels 4
(`len ≠ width·height·channels`) is encoded successfully into a 22-byte
stream instead of failing with a BufferSizeMismatch error. -/
theorem c6_no_size_check :
    qoiEncode [] 1 1 4 0 = some (headerBytes 1 1 4 0 ++ endMarker) := by decide

/-- C7 counterexample: the first pixel of the image is `(255,0,0,0)` —
equal to `qoi.py`'s initial `prev_px_int` — so it is absorbed into a run
and the cache slot at its hash 61 still holds the initial `(0,0,0,0)`,
*not* the most recently consumed pixel with hash 61, which is
`(255,0,0,0)` itself. -/
theorem c7_initial_run_violates_invariant :
    pxHash prevPxInt = 61 ∧
    (encSteps encInit [prevPxInt]).1.cache.getD 61 pxZero = pxZero ∧
    claimCache [prevPxInt] 61 = prevPxInt ∧
    pxZero ≠ prevPxInt := by decide

/-- C8 counterexample: 100 identical pixels `(255,0,0,255)` (10×10 RGBA).
The encoded body is `FE FF 00 00 FD E4` — an RGB opcode for the first
pixel, then RUN(61) and RUN(36) (lengths 62 and 37) — not the claimed
two-opcode body `FD E5`. -/
theorem c8_hundred_red_pixels :
    qoiEncode (flatten4 (List.replicate 100 ⟨255, 0, 0, 255⟩)) 10 10 4 0 =
      some (headerBytes 10 10 4 0 ++ [0xFE, 255, 0, 0, 0xFD, 0xE4] ++ endMarker) ∧
    qoiEncode (flatten4 (List.replicate 100 ⟨255, 0, 0, 255⟩)) 10 10 4 0 ≠
      some (headerBytes 10 10 4 0 ++ [0xFD, 0xE5] ++ endMarker) := by
  constructor <;> decide

/-- C9 counterexample: the stream declares `channels = 1` in the header.
`qoi.py`'s header checks (length, magic, nonzero dimensions) all pass,
but decode does not return a buffer of `width·height·out_channels` bytes:
the 3-byte-per-pixel writes overflow the 1-byte output buffer (Python
raises `IndexError`). -/
theorem c9_channels1_crashes :
    qoiDecode (headerBytes 1 1 1 0 ++ endMarker) 0 = none := by decide

/-- C10 counterexample: two 23-byte streams that agree everywhere except
inside their final 8 bytes decode differently: the RGB opcode at the last
opcode position reads its three argument bytes from the trailer region. -/
theorem c10_trailer_bytes_read :
    qoiDecode (headerBytes 1 1 4 0 ++ [0xFE] ++ [0, 0, 0, 0, 0, 0, 0, 1]) 0 ≠
    qoiDecode (headerBytes 1 1 4 0 ++ [0xFE] ++ [9, 9, 9, 0, 0, 0, 0, 1]) 0 := by
  decide

/-! ## Header serialization lemmas -/

theorem headerBytes_cons (w h ch cs : Nat) (rest : List Nat) :
    headerBytes w h ch cs ++ rest =
      113 :: 111 :: 105 :: 102 :: (w / 2 ^ 24 % 256) :: (w / 2 ^ 16 % 256) ::
      (w / 2 ^ 8 % 256) :: (w % 256) :: (h / 2 ^ 24 % 256) ::
      (h / 2 ^ 16 % 256) :: (h / 2 ^ 8 % 256) :: (h % 256) :: ch :: cs ::
      rest := by
  simp [headerBytes, qoiMagic, be32]

theorem headerBytes_length (w h ch cs : Nat) :
    (headerBytes w h ch cs).length = 14 := by
  simp [headerBytes, qoiMagic, be32]

theorem header_take4 (w h ch cs : Nat) (rest : List Nat) :
    (headerBytes w h ch cs ++ rest).take 4 = qoiMagic := by
  rw [headerBytes_cons]; rfl

theorem header_readBE32_w (w h ch cs : Nat) (rest : List Nat) (hw : w < 2 ^ 32) :
    readBE32 (headerBytes w h ch cs ++ rest) 4 = w := by
  rw [headerBytes_cons]
  show w / 2 ^ 24 % 256 * 2 ^ 24 + w / 2 ^ 16 % 256 * 2 ^ 16 +
      w / 2 ^ 8 % 256 * 2 ^ 8 + w % 256 = w
  omega

theorem header_readBE32_h (w h ch cs : Nat) (rest : List Nat) (hh : h < 2 ^ 32) :
    readBE32 (headerBytes w h ch cs ++ rest) 8 = h := by
  rw [headerBytes_cons]
  show h / 2 ^ 24 % 256 * 2 ^ 24 + h / 2 ^ 16 % 256 * 2 ^ 16 +
      h / 2 ^ 8 % 256 * 2 ^ 8 + h % 256 = h
  omega

theorem header_getD_12 (w h ch cs : Nat) (rest : List Nat) :
    (headerBytes w h ch cs ++ rest).getD 12 0 = ch := by
  rw [headerBytes_cons]; rfl

theorem header_getD_13 (w h ch cs : Nat) (rest : List Nat) :
    (headerBytes w h ch cs ++ rest).getD 13 0 = cs := by
  rw [headerBytes_cons]; rfl

theorem flatten4_length (l : List Px) : (flatten4 l).length = 4 * l.length := by
  induction l with
  | nil => rfl
  | cons p rest ih => simp [flatten4, ih]; omega

theorem flatten3_length (l : List Px) : (flatten3 l).length = 3 * l.length := by
  induction l with
  | nil => rfl
  | cons p rest ih => simp [flatten3, ih]; omega

theorem toPixels4_flatten4 (l : List Px) : toPixels4 (flatten4 l) = some l := by
  induction l with
  | nil => rfl
  | cons p rest ih => simp [flatten4, toPixels4, ih]

/-! ## Which bytes the decoder can read (C10 machinery) -/

/-- One decode step only reads indices `< dl + 4`: the opcode byte at
`pos < dl` and at most four argument bytes at `pos+1 .. pos+4`. -/
theorem decDispatch_congr (d1 d2 : List Nat) (s : DecState) (p : Nat)
    (hagree : ∀ i, i ≤ p + 4 → d1.getD i 0 = d2.getD i 0) :
    decDispatch d1 s p = decDispatch d2 s p := by
  unfold decDispatch
  simp only [hagree p (by omega), hagree (p + 1) (by omega),
    hagree (p + 2) (by omega), hagree (p + 3) (by omega),
    hagree (p + 4) (by omega)]

theorem decStep_congr (d1 d2 : List Nat) (dl : Nat) (s : DecState)
    (hagree : ∀ i, i < dl + 4 → d1.getD i 0 = d2.getD i 0) :
    decStep d1 dl s = decStep d2 dl s := by
  unfold decStep
  by_cases hrun : s.run ≠ 0
  · simp [hrun]
  · by_cases hpos : s.pos < dl
    · have hd : decDispatch d1 s s.pos = decDispatch d2 s s.pos :=
        decDispatch_congr d1 d2 s s.pos (fun i hi => hagree i (by omega))
      simp only [hrun, hpos, hd, if_true, if_false]
    · simp [hrun, hpos]

/-- The whole decode loop is insensitive to bytes at indices `≥ dl + 4`. -/
theorem decodeN_congr (d1 d2 : List Nat) (dl : Nat)
    (hagree : ∀ i, i < dl + 4 → d1.getD i 0 = d2.getD i 0) :
    ∀ (n : Nat) (s : DecState), decodeN d1 dl n s = decodeN d2 dl n s := by
  intro n
  induction n with
  | zero => intro s; rfl
  | succ m ih =>
    intro s
    rw [decodeN_succ, decodeN_succ, decStep_congr d1 d2 dl s hagree, ih]

theorem take4_eq_getD (l : List Nat) (h : 4 ≤ l.length) :
    l.take 4 = [l.getD 0 0, l.getD 1 0, l.getD 2 0, l.getD 3 0] := by
  match l with
  | a :: b :: c :: d :: rest => rfl
  | [] => simp at h
  | [_] => simp at h
  | [_, _] => simp at h
  | [_, _, _] => simp at h

/-- C10 (amended): the decoder never inspects the final **4** bytes of its
input.  Any two equal-length inputs agreeing everywhere except on some of
the last 4 bytes decode identically under `qoi.py`.  (The claim's "final
8 bytes" fails: a multi-byte opcode starting just before the end marker
reads its argument bytes from the first 4 trailer bytes — see the
counterexample — but all reads stay below `len - 4`.) -/
theorem c10_last4_never_read (d1 d2 : List Nat) (channels : Nat)
    (hlen : d1.length = d2.length)
    (hagree : ∀ i, i + 4 < d1.length → d1.getD i 0 = d2.getD i 0) :
    qoiDecode d1 channels = qoiDecode d2 channels := by
  by_cases hsmall : d1.length < 22
  · have hsmall2 : d2.length < 22 := by omega
    simp [qoiDecode, hsmall, hsmall2]
  · have h22 : 22 ≤ d1.length := by omega
    have htake : d1.take 4 = d2.take 4 := by
      rw [take4_eq_getD d1 (by omega), take4_eq_getD d2 (by omega),
        hagree 0 (by omega), hagree 1 (by omega), hagree 2 (by omega),
        hagree 3 (by omega)]
    have hw : readBE32 d1 4 = readBE32 d2 4 := by
      unfold readBE32
      rw [hagree 4 (by omega), hagree 5 (by omega), hagree 6 (by omega),
        hagree 7 (by omega)]
    have hh : readBE32 d1 8 = readBE32 d2 8 := by
      unfold readBE32
      rw [hagree 8 (by omega), hagree 9 (by omega), hagree 10 (by omega),
        hagree 11 (by omega)]
    have h12 : d1.getD 12 0 = d2.getD 12 0 := hagree 12 (by omega)
    have h13 : d1.getD 13 0 = d2.getD 13 0 := hagree 13 (by omega)
    have hdec : ∀ n s, decodeN d1 (d2.length - 8) n s =
        decodeN d2 (d2.length - 8) n s := by
      intro n s
      exact decodeN_congr d1 d2 _ (fun i hi => hagree i (by omega)) n s
    have hsmall2 : ¬ d2.length < 22 := by omega
    simp only [qoiDecode, hsmall, hsmall2, if_false, htake, hw, hh, h12, h13,
      hdec, hlen]

/-- Witness for C10 (amended): two concrete streams differing only in the
last 4 bytes decode identically. -/
theorem c10_witness :
    qoiDecode (headerBytes 1 1 4 0 ++ [0xC0] ++ [0, 0, 0, 0, 0, 0, 0, 1]) 0 =
    qoiDecode (headerBytes 1 1 4 0 ++ [0xC0] ++ [0, 0, 0, 0, 9, 9, 9, 9]) 0 := by
  refine c10_last4_never_read _ _ 0 (by decide) ?_
  intro i hi
  have hi23 : i < 19 := by
    have : (headerBytes 1 1 4 0 ++ [0xC0] ++ [0, 0, 0, 0, 0, 0, 0, 1]).length
        = 23 := by decide
    omega
  interval_cases i <;> rfl

/-! ## The decoder cache invariant (C4 machinery) -/

theorem pxHash_lt (p : Px) : pxHash p < 64 := Nat.mod_lt _ (by omega)

/-- Any decode step preserves `cache[hash(px)] = px` (and the cache size):
whenever a new pixel is produced it is immediately stored at its hash. -/
theorem decStep_inv (data : List Nat) (dl : Nat) (s : DecState)
    (hlen : s.cache.length = 64)
    (hgd : s.cache.getD (pxHash s.px) pxZero = s.px) :
    (decStep data dl s).cache.length = 64 ∧
    (decStep data dl s).cache.getD (pxHash (decStep data dl s).px) pxZero =
      (decStep data dl s).px := by
  unfold decStep
  by_cases hrun : s.run ≠ 0
  · rw [if_pos hrun]; exact ⟨hlen, hgd⟩
  · rw [if_neg hrun]
    by_cases hpos : s.pos < dl
    · rw [if_pos hpos]
      dsimp only
      refine ⟨?_, ?_⟩
      · rw [List.length_set]; exact hlen
      · exact listGetD_set_self _ _ _ _ (by rw [hlen]; exact pxHash_lt _)
    · rw [if_neg hpos]; exact ⟨hlen, hgd⟩

/-- A decode step that reads a RUN opcode (`b1` with top two bits `11`,
not `0xFE`/`0xFF`) rewrites `cache[hash(px)]` with the value it already
holds: under the invariant the cache is unchanged. -/
theorem decStep_run_noop (data : List Nat) (dl : Nat) (s : DecState)
    (hlen : s.cache.length = 64)
    (hgd : s.cache.getD (pxHash s.px) pxZero = s.px)
    (hrun : s.run = 0) (hpos : s.pos < dl)
    (hfe : data.getD s.pos 0 ≠ 0xFE) (hff : data.getD s.pos 0 ≠ 0xFF)
    (h3 : data.getD s.pos 0 / 64 = 3) :
    (decStep data dl s).cache = s.cache := by
  have h0 : ¬ data.getD s.pos 0 / 64 = 0 := by omega
  have h1 : ¬ data.getD s.pos 0 / 64 = 1 := by omega
  have h2 : ¬ data.getD s.pos 0 / 64 = 2 := by omega
  have hset := listSet_getD_self s.cache (pxHash s.px) pxZero
    (by rw [hlen]; exact pxHash_lt _)
  rw [hgd] at hset
  unfold decStep decDispatch
  rw [if_neg (by simp [hrun]), if_pos hpos]
  dsimp only
  rw [if_neg hfe, if_neg hff, if_neg h0, if_neg h1, if_neg h2, if_pos h3]
  exact hset

/-- The invariant holds in every state the `qoi2.py` decoder reaches. -/
theorem decodeN_inv_qoi2 (data : List Nat) (dl : Nat) :
    ∀ (n : Nat),
      (decodeN data dl n dec2Init).2.cache.length = 64 ∧
      (decodeN data dl n dec2Init).2.cache.getD
          (pxHash (decodeN data dl n dec2Init).2.px) pxZero =
        (decodeN data dl n dec2Init).2.px := by
  suffices hgen : ∀ (n : Nat) (s : DecState), s.cache.length = 64 →
      s.cache.getD (pxHash s.px) pxZero = s.px →
      (decodeN data dl n s).2.cache.length = 64 ∧
      (decodeN data dl n s).2.cache.getD
          (pxHash (decodeN data dl n s).2.px) pxZero =
        (decodeN data dl n s).2.px by
    intro n
    exact hgen n dec2Init (by decide) (by decide)
  intro n
  induction n with
  | zero => intro s hlen hgd; exact ⟨hlen, hgd⟩
  | succ m ih =>
    intro s hlen hgd
    rw [decodeN_succ]
    obtain ⟨hlen2, hgd2⟩ := decStep_inv data dl s hlen hgd
    exact ih (decStep data dl s) hlen2 hgd2

/-- C4 (amended): in the `qoi2.py` decoder the 64-slot cache is left
extensionally unchanged by a RUN-opcode step.  In every reachable state
`cache[hash(px)] = px` (first conjunct), so the step's unconditional
store — the source *does* execute `index[idx_pos] = px` for RUN opcodes,
unlike what the claim says — rewrites the slot with the value it already
holds (second conjunct).  For `qoi.py` this fails on a stream whose first
opcode is a RUN (see the counterexample): its asymmetric initial state
(`cache[53] = (0,0,0,0)` but `px = (0,0,0,255)`) makes the store visible. -/
theorem c4_qoi2_run_cache_unchanged (data : List Nat) (dl n : Nat) :
    ((decodeN data dl n dec2Init).2.cache.getD
        (pxHash (decodeN data dl n dec2Init).2.px) pxZero =
      (decodeN data dl n dec2Init).2.px) ∧
    ((decodeN data dl n dec2Init).2.run = 0 →
      (decodeN data dl n dec2Init).2.pos < dl →
      data.getD (decodeN data dl n dec2Init).2.pos 0 ≠ 0xFE →
      data.getD (decodeN data dl n dec2Init).2.pos 0 ≠ 0xFF →
      data.getD (decodeN data dl n dec2Init).2.pos 0 / 64 = 3 →
      (decStep data dl (decodeN data dl n dec2Init).2).cache =
        (decodeN data dl n dec2Init).2.cache) := by
  obtain ⟨hlen, hgd⟩ := decodeN_inv_qoi2 data dl n
  exact ⟨hgd, fun hrun hpos hfe hff h3 =>
    decStep_run_noop data dl _ hlen hgd hrun hpos hfe hff h3⟩

/-- Witness for C4 (amended): on a concrete stream whose first opcode is
`0xC1` (RUN), the `qoi2.py` decoder's cache is unchanged by that step. -/
theorem c4_witness :
    (decStep (headerBytes 1 2 4 0 ++ [0xC1] ++ endMarker) 15
        (decodeN (headerBytes 1 2 4 0 ++ [0xC1] ++ endMarker) 15 0 dec2Init).2).cache =
      (decodeN (headerBytes 1 2 4 0 ++ [0xC1] ++ endMarker) 15 0 dec2Init).2.cache :=
  (c4_qoi2_run_cache_unchanged (headerBytes 1 2 4 0 ++ [0xC1] ++ endMarker)
    15 0).2 (by decide) (by decide) (by decide) (by decide) (by decide)

/-! ## Amended claims C3, C9, C5 -/

/-- C3 (amended): when the decoder still owes pixels, no run is in
progress, and the opcode region is exhausted, `qoi.py`'s decode does
**not** fail with an error: it emits a copy of the current pixel for
every remaining output pixel and returns the buffer normally.  Shown here
for the extreme stream whose opcode region is empty: all `w*h` pixels are
owed at an exhausted cursor and the result is `w*h` copies of the initial
pixel `(0,0,0,255)`. -/
theorem c3_exhausted_emits_current_pixel (w h cs : Nat)
    (hw : w ≠ 0) (hh : h ≠ 0) (hw32 : w < 2 ^ 32) (hh32 : h < 2 ^ 32)
    (hcs : cs < 256) :
    qoiDecode (headerBytes w h 4 cs ++ endMarker) 0 =
      some (flatten4 (List.replicate (w * h) pxInit), w, h, 4, cs) := by
  have hlen : (headerBytes w h 4 cs ++ endMarker).length = 22 := by
    rw [List.length_append, headerBytes_length]; rfl
  have hex : (decodeN (headerBytes w h 4 cs ++ endMarker) 14 (w * h)
      decInit).1 = List.replicate (w * h) pxInit :=
    decodeN_exhausted _ 14 (w * h) (List.replicate 64 pxZero) pxInit 0 14
      (by omega)
  simp only [qoiDecode, hlen, header_take4, header_readBE32_w _ _ _ _ _ hw32,
    header_readBE32_h _ _ _ _ _ hh32, header_getD_12, header_getD_13]
  rw [if_neg (by omega)]
  rw [if_neg (by simp [qoiMagic, hw, hh])]
  simp only [ne_eq, not_true_eq_false, if_false, reduceIte]
  rw [hex]
  rfl

/-- Witness for C3 (amended) at the concrete 2×1 image. -/
theorem c3_witness :
    qoiDecode (headerBytes 2 1 4 0 ++ endMarker) 0 =
      some (flatten4 (List.replicate (2 * 1) pxInit), 2, 1, 4, 0) :=
  c3_exhausted_emits_current_pixel 2 1 0 (by decide) (by decide)
    (by norm_num) (by norm_num) (by decide)

/-- C9 (amended): for every input passing `qoi.py`'s header checks
(length ≥ 22, magic, nonzero dimensions) **and whose output channel count
is at least 3**, decode terminates normally and returns a buffer of
exactly `width·height·out_channels` bytes, where `out_channels` is
`force_channels` when nonzero and the header's channels byte otherwise;
and whenever the opcode region is exhausted, each remaining output pixel
is a copy of the current pixel (second conjunct).  The `≥ 3` proviso is
forced: `qoi.py` never validates the channels byte, and for
`out_channels < 3` the 3-byte-per-pixel writes overflow the output buffer
(see the counterexample). -/
theorem c9_decode_returns_sized_buffer (data : List Nat) (channels : Nat)
    (h22 : ¬ data.length < 22)
    (hmagic : data.take 4 = qoiMagic)
    (hw : readBE32 data 4 ≠ 0) (hh : readBE32 data 8 ≠ 0)
    (hoc : 3 ≤ (if channels ≠ 0 then channels else data.getD 12 0)) :
    (∃ buf, qoiDecode data channels =
        some (buf, readBE32 data 4, readBE32 data 8, data.getD 12 0,
          data.getD 13 0) ∧
      buf.length = readBE32 data 4 * readBE32 data 8 *
        (if channels ≠ 0 then channels else data.getD 12 0)) ∧
    (∀ (m : Nat) (c : List Px) (px : Px) (run pos : Nat),
      data.length - 8 ≤ pos →
      (decodeN data (data.length - 8) m ⟨c, px, run, pos⟩).1 =
        List.replicate m px) := by
  constructor
  · set oc := if channels ≠ 0 then channels else data.getD 12 0 with hocdef
    set n := readBE32 data 4 * readBE32 data 8 with hn
    have hpxs : (decodeN data (data.length - 8) n decInit).1.length = n :=
      decodeN_length data (data.length - 8) n decInit
    by_cases h4 : oc = 4
    · refine ⟨flatten4 (decodeN data (data.length - 8) n decInit).1, ?_, ?_⟩
      · simp only [qoiDecode, h22, if_false, hmagic]
        rw [if_neg (by simp [qoiMagic, hw, hh])]
        rw [← hocdef, ← hn, h4]
        simp [assemble]
      · rw [flatten4_length, hpxs, h4]; ring
    · have h3n : 3 * n ≤ n * oc := by
        calc 3 * n = n * 3 := by ring
        _ ≤ n * oc := Nat.mul_le_mul_left n hoc
      refine ⟨flatten3 (decodeN data (data.length - 8) n decInit).1 ++
          List.replicate (n * oc - 3 * n) 0, ?_, ?_⟩
      · simp only [qoiDecode, h22, if_false, hmagic]
        rw [if_neg (by simp [qoiMagic, hw, hh])]
        rw [← hocdef, ← hn]
        simp [assemble, h4, h3n]
      · rw [List.length_append, flatten3_length, hpxs, List.length_replicate]
        omega
  · intro m c px run pos hpos
    exact decodeN_exhausted data (data.length - 8) m c px run pos hpos

/-- Witness for C9 (amended): the 1×1 RGBA stream with body `C0`. -/
theorem c9_witness :
    (∃ buf, qoiDecode (headerBytes 1 1 4 0 ++ [0xC0] ++ endMarker) 0 =
        some (buf, readBE32 (headerBytes 1 1 4 0 ++ [0xC0] ++ endMarker) 4,
          readBE32 (headerBytes 1 1 4 0 ++ [0xC0] ++ endMarker) 8,
          (headerBytes 1 1 4 0 ++ [0xC0] ++ endMarker).getD 12 0,
          (headerBytes 1 1 4 0 ++ [0xC0] ++ endMarker).getD 13 0) ∧
      buf.length =
        readBE32 (headerBytes 1 1 4 0 ++ [0xC0] ++ endMarker) 4 *
        readBE32 (headerBytes 1 1 4 0 ++ [0xC0] ++ endMarker) 8 *
        (if (0 : Nat) ≠ 0 then 0
         else (headerBytes 1 1 4 0 ++ [0xC0] ++ endMarker).getD 12 0)) ∧
    (∀ (m : Nat) (c : List Px) (px : Px) (run pos : Nat),
      (headerBytes 1 1 4 0 ++ [0xC0] ++ endMarker).length - 8 ≤ pos →
      (decodeN (headerBytes 1 1 4 0 ++ [0xC0] ++ endMarker)
          ((headerBytes 1 1 4 0 ++ [0xC0] ++ endMarker).length - 8) m
          ⟨c, px, run, pos⟩).1 = List.replicate m px) :=
  c9_decode_returns_sized_buffer (headerBytes 1 1 4 0 ++ [0xC0] ++ endMarker)
    0 (by decide) (by decide) (by decide) (by decide) (by decide)

/-- With an output channel count of at least 3, the output assembly
always succeeds. -/
theorem assemble_isSome (oc n : Nat) (pxs : List Px) (h : 3 ≤ oc) :
    (assemble oc n pxs).isSome := by
  unfold assemble
  by_cases h4 : oc = 4
  · simp [h4]
  · rw [if_neg h4, if_pos (by
      calc 3 * n = n * 3 := by ring
        _ ≤ n * oc := Nat.mul_le_mul_left n h)]
    simp

/-- C5 (amended): `qoi2.py`'s decode (with `force_channels = 0`) fails —
returns no result — *exactly* when: input length < 22, magic mismatch,
width = 0, height = 0, channels ∉ {3,4}, colorspace ∉ {0,1}, or
height ≥ 400000000 // width (integer division, as in the source).
`qoi.py` checks only length, magic and nonzero dimensions — see the
counterexample, which it accepts with a channels byte of 7. -/
theorem c5_qoi2_header_parse_iff (data : List Nat) :
    qoi2Decode data 0 = none ↔
      (data.length < 22 ∨ data.take 4 ≠ qoiMagic ∨
       readBE32 data 4 = 0 ∨ readBE32 data 8 = 0 ∨
       data.getD 12 0 < 3 ∨ 4 < data.getD 12 0 ∨ 1 < data.getD 13 0 ∨
       QOI_PIXELS_MAX / readBE32 data 4 ≤ readBE32 data 8) := by
  unfold qoi2Decode
  by_cases h1 : data.length < 22
  · rw [if_pos h1]
    exact iff_of_true rfl (Or.inl h1)
  · rw [if_neg h1]
    by_cases h2 : data.take 4 ≠ qoiMagic
    · rw [if_pos h2]
      exact iff_of_true rfl (Or.inr (Or.inl h2))
    · rw [if_neg h2]
      by_cases h3 : readBE32 data 4 = 0 ∨ readBE32 data 8 = 0 ∨
          data.getD 12 0 < 3 ∨ 4 < data.getD 12 0 ∨ 1 < data.getD 13 0 ∨
          QOI_PIXELS_MAX / readBE32 data 4 ≤ readBE32 data 8
      · rw [if_pos h3]
        exact iff_of_true rfl (Or.inr (Or.inr h3))
      · rw [if_neg h3]
        refine iff_of_false ?_ (fun hdisj => by
          rcases hdisj with ha | hb | hrest
          · exact h1 ha
          · exact h2 hb
          · exact h3 hrest)
        have hoc : 3 ≤ data.getD 12 0 := by
          rcases Nat.lt_or_ge (data.getD 12 0) 3 with hlt | hge
          · exact absurd (Or.inr (Or.inr (Or.inl hlt))) h3
          · exact hge
        rw [if_pos rfl]
        cases hasm : assemble (data.getD 12 0)
            (readBE32 data 4 * readBE32 data 8)
            (decodeN data (data.length - 8)
              (readBE32 data 4 * readBE32 data 8) dec2Init).1 with
        | none =>
          have hs := assemble_isSome (data.getD 12 0)
            (readBE32 data 4 * readBE32 data 8)
            (decodeN data (data.length - 8)
              (readBE32 data 4 * readBE32 data 8) dec2Init).1 hoc
          rw [hasm] at hs
          simp at hs
        | some v =>
          simp

/-! ## Encoder cache characterization (C7) -/

/-- Unfolding equation for one encoder step. -/
theorem encLoop_cons (s : EncState) (p : Px) (rest : List Px) :
    encLoop s (p :: rest) =
      if p = s.prev then
        if s.run + 1 = 62 ∨ rest = [] then
          ((encLoop ⟨s.cache, s.prev, 0⟩ rest).1,
            (0xC0 + s.run) :: (encLoop ⟨s.cache, s.prev, 0⟩ rest).2)
        else encLoop ⟨s.cache, s.prev, s.run + 1⟩ rest
      else
        if s.cache.getD (pxHash p) pxZero = p then
          ((encLoop ⟨s.cache, p, 0⟩ rest).1,
            (if s.run ≠ 0 then [0xC0 + (s.run - 1)] else []) ++
              pxHash p :: (encLoop ⟨s.cache, p, 0⟩ rest).2)
        else
          ((encLoop ⟨s.cache.set (pxHash p) p, p, 0⟩ rest).1,
            (if s.run ≠ 0 then [0xC0 + (s.run - 1)] else []) ++
              opBytes s.prev p ++
                (encLoop ⟨s.cache.set (pxHash p) p, p, 0⟩ rest).2) := rfl

theorem getD_replicate_self {α : Type} (n i : Nat) (d : α) :
    (List.replicate n d).getD i d = d := by
  induction n generalizing i with
  | zero => rfl
  | succ m ih =>
    cases i with
    | zero => rfl
    | succ j => simpa [List.replicate_succ, List.getD] using ih j

/-- The encoder's cache slot `h` is computed by the `encCacheSpec` fold:
it tracks the latest non-run-absorbed pixel with hash `h`. -/
theorem encLoop_cache_foldl :
    ∀ (l : List Px) (ce : List Px) (prev : Px) (r : Nat) (h : Nat),
      ce.length = 64 → h < 64 →
      (encLoop ⟨ce, prev, r⟩ l).1.cache.getD h pxZero =
        (l.foldl
          (fun (st : Px × Px) p =>
            (p, if p ≠ st.1 ∧ pxHash p = h then p else st.2))
          (prev, ce.getD h pxZero)).2 := by
  intro l
  induction l with
  | nil => intro ce prev r h _ _; rfl
  | cons p rest ih =>
    intro ce prev r h hce hh
    rw [encLoop_cons, List.foldl_cons]
    by_cases hp : p = prev
    · have hpair : (p, if p ≠ (prev, ce.getD h pxZero).1 ∧ pxHash p = h
          then p else (prev, ce.getD h pxZero).2) = (p, ce.getD h pxZero) := by
        simp [hp]
      rw [if_pos (show p = (⟨ce, prev, r⟩ : EncState).prev from hp), hpair]
      by_cases hf : (⟨ce, prev, r⟩ : EncState).run + 1 = 62 ∨ rest = []
      · rw [if_pos hf]
        simpa [hp] using ih ce prev 0 h hce hh
      · rw [if_neg hf]
        simpa [hp] using ih ce prev (r + 1) h hce hh
    · rw [if_neg (show ¬ p = (⟨ce, prev, r⟩ : EncState).prev from hp)]
      by_cases hhit :
          (⟨ce, prev, r⟩ : EncState).cache.getD (pxHash p) pxZero = p
      · rw [if_pos hhit]
        have hpair : (p, if p ≠ (prev, ce.getD h pxZero).1 ∧ pxHash p = h
            then p else (prev, ce.getD h pxZero).2) =
              (p, ce.getD h pxZero) := by
          by_cases hph : pxHash p = h
          · have hc : ce.getD h pxZero = p := hph ▸ hhit
            rw [hc]
            simp [hph]
          · simp [hph]
        rw [hpair]
        simpa using ih ce p 0 h hce hh
      · rw [if_neg hhit]
        have hlen2 : (ce.set (pxHash p) p).length = 64 := by
          rw [List.length_set]; exact hce
        have hpair : (p, if p ≠ (prev, ce.getD h pxZero).1 ∧ pxHash p = h
            then p else (prev, ce.getD h pxZero).2) =
              (p, (ce.set (pxHash p) p).getD h pxZero) := by
          by_cases hph : pxHash p = h
          · have hset : (ce.set (pxHash p) p).getD h pxZero = p := by
              rw [hph]
              exact listGetD_set_self ce h p pxZero (by rw [hce]; omega)
            rw [hset]
            simp [hp, hph]
          · have hset : (ce.set (pxHash p) p).getD h pxZero =
                ce.getD h pxZero := listGetD_set_ne ce (pxHash p) h p pxZero hph
            rw [hset]
            simp [hph]
        rw [hpair]
        simpa using ih (ce.set (pxHash p) p) p 0 h hlen2 hh

/-- Unfolding equation for one `qoi.py` encoder step. -/
theorem encSteps_cons (s : EncStatePy) (p : Px) (rest : List Px) :
    encSteps s (p :: rest) =
      if p = s.prevInt then
        if s.run + 1 = 62 ∨ rest = [] then
          ((encSteps ⟨s.cache, s.prevInt, s.prev, 0⟩ rest).1,
            (0xC0 + s.run) :: (encSteps ⟨s.cache, s.prevInt, s.prev, 0⟩ rest).2)
        else encSteps ⟨s.cache, s.prevInt, s.prev, s.run + 1⟩ rest
      else
        if s.cache.getD (pxHash p) pxZero = p then
          ((encSteps ⟨s.cache, p, p, 0⟩ rest).1,
            (if s.run ≠ 0 then [0xC0 + (s.run - 1)] else []) ++
              pxHash p :: (encSteps ⟨s.cache, p, p, 0⟩ rest).2)
        else
          ((encSteps ⟨s.cache.set (pxHash p) p, p, p, 0⟩ rest).1,
            (if s.run ≠ 0 then [0xC0 + (s.run - 1)] else []) ++
              opBytes s.prev p ++
                (encSteps ⟨s.cache.set (pxHash p) p, p, p, 0⟩ rest).2) := rfl

/-- The cache evolution of `qoi.py`'s dual-prev loop depends only on the
run-check pixel `prevInt`, never on the opcode base `prev`: it matches
the single-prev loop driven by `prevInt`. -/
theorem encSteps_cache_eq :
    ∀ (l : List Px) (c : List Px) (pI p : Px) (r : Nat),
      (encSteps ⟨c, pI, p, r⟩ l).1.cache = (encLoop ⟨c, pI, r⟩ l).1.cache := by
  intro l
  induction l with
  | nil => intro c pI p r; rfl
  | cons x rest ih =>
    intro c pI p r
    rw [encSteps_cons, encLoop_cons]
    dsimp only
    by_cases hx : x = pI
    · rw [if_pos hx, if_pos hx]
      by_cases hf : r + 1 = 62 ∨ rest = []
      · rw [if_pos hf, if_pos hf]
        exact ih c pI p 0
      · rw [if_neg hf, if_neg hf]
        exact ih c pI p (r + 1)
    · rw [if_neg hx, if_neg hx]
      by_cases hhit : c.getD (pxHash x) pxZero = x
      · rw [if_pos hhit, if_pos hhit]
        exact ih c x x 0
      · rw [if_neg hhit, if_neg hhit]
        exact ih (c.set (pxHash x) x) x x 0

/-- C7 (amended): the encoder cache slot at index `h` always equals the
most recently consumed pixel `p'` with `hash(p') = h` **that was not
absorbed into a run**, or the initial `(0,0,0,0)` if none (the
`encCacheSpec` fold, whose run check starts from the encoder's
`prev_px_int = (255,0,0,0)`).  The claim's stronger form — covering
run-absorbed pixels too — fails only for an image-initial run of
`(255,0,0,0)` pixels, which never populates slot 61 (see the
counterexample). -/
theorem c7_cache_tracks_nonrun (l : List Px) (h : Nat) (hh : h < 64) :
    (encSteps encInit l).1.cache.getD h pxZero = encCacheSpec l h := by
  have heq := encSteps_cache_eq l (List.replicate 64 pxZero) prevPxInt pxInit 0
  have hbase := encLoop_cache_foldl l (List.replicate 64 pxZero) prevPxInt 0 h
    (by simp) hh
  rw [getD_replicate_self] at hbase
  rw [show encInit = ⟨List.replicate 64 pxZero, prevPxInt, pxInit, 0⟩ from rfl,
    heq]
  exact hbase

/-- Witness for C7 (amended) on a concrete two-pixel image. -/
theorem c7_witness :
    (encSteps encInit [pxInit, ⟨1, 2, 3, 255⟩]).1.cache.getD 53 pxZero =
      encCacheSpec [pxInit, ⟨1, 2, 3, 255⟩] 53 :=
  c7_cache_tracks_nonrun [pxInit, ⟨1, 2, 3, 255⟩] 53 (by omega)

/-! ## Encoder output-size bound and C6 -/

theorem opBytes_length_le (prev p : Px) : (opBytes prev p).length ≤ 5 := by
  unfold opBytes
  by_cases h1 : p.a = prev.a
  · rw [if_pos h1]
    dsimp only
    split
    · simp
    · split
      · simp
      · simp
  · rw [if_neg h1]
    simp

/-- Each pixel contributes at most 5 body bytes; a pending run holds one
extra credit for its eventual flush byte. -/
theorem encLoop_body_length :
    ∀ (l : List Px) (s : EncState),
      (encLoop s l).2.length ≤ 5 * l.length + (if s.run ≠ 0 then 1 else 0) := by
  intro l
  induction l with
  | nil =>
    intro s
    simp [encLoop]
  | cons p rest ih =>
    intro s
    rw [encLoop_cons]
    by_cases hp : p = s.prev
    · rw [if_pos hp]
      by_cases hf : s.run + 1 = 62 ∨ rest = []
      · rw [if_pos hf]
        have := ih ⟨s.cache, s.prev, 0⟩
        simp only [List.length_cons]
        simp only [ne_eq, not_true_eq_false, if_false] at this ⊢
        omega
      · rw [if_neg hf]
        have := ih ⟨s.cache, s.prev, s.run + 1⟩
        simp only [ne_eq, List.length_cons] at this ⊢
        split at this <;> split <;> omega
    · rw [if_neg hp]
      have hflush : (if s.run ≠ 0 then [0xC0 + (s.run - 1)] else
          ([] : List Nat)).length ≤ (if s.run ≠ 0 then 1 else 0) := by
        split <;> simp
      by_cases hhit : s.cache.getD (pxHash p) pxZero = p
      · rw [if_pos hhit]
        have := ih ⟨s.cache, p, 0⟩
        simp only [List.length_append, List.length_cons] at *
        simp only [ne_eq, not_true_eq_false, if_false] at this
        split at hflush <;> split <;> omega
      · rw [if_neg hhit]
        have := ih ⟨s.cache.set (pxHash p) p, p, 0⟩
        have hop := opBytes_length_le s.prev p
        simp only [List.length_append, List.length_cons] at *
        simp only [ne_eq, not_true_eq_false, if_false] at this
        split at hflush <;> split <;> omega

/-- Buffers whose length is a multiple of 4 always split into pixels. -/
theorem toPixels4_of_mod (bs : List Nat) (hm : bs.length % 4 = 0) :
    ∃ l, toPixels4 bs = some l ∧ 4 * l.length = bs.length := by
  suffices hgen : ∀ (n : Nat) (bs : List Nat), bs.length ≤ n →
      bs.length % 4 = 0 →
      ∃ l, toPixels4 bs = some l ∧ 4 * l.length = bs.length from
    hgen bs.length bs le_rfl hm
  intro n
  induction n with
  | zero =>
    intro bs hle _
    match bs with
    | [] => exact ⟨[], rfl, rfl⟩
    | x :: rest => simp at hle
  | succ m ih =>
    intro bs hle hm
    match bs with
    | [] => exact ⟨[], rfl, rfl⟩
    | [a] => simp at hm
    | [a, b] => simp at hm
    | [a, b, c] => simp at hm
    | a :: b :: c :: d :: rest =>
      have hm4 : rest.length % 4 = 0 := by
        simp only [List.length_cons] at hm; omega
      have hle4 : rest.length ≤ m := by
        simp only [List.length_cons] at hle; omega
      obtain ⟨l, hl, hlen⟩ := ih rest hle4 hm4
      exact ⟨⟨a, b, c, d⟩ :: l, by simp [toPixels4, hl],
        by simp only [List.length_cons]; omega⟩

/-- Each pixel contributes at most 5 body bytes (`qoi.py` loop); a
pending run holds one extra credit for its eventual flush byte. -/
theorem encSteps_body_length :
    ∀ (l : List Px) (s : EncStatePy),
      (encSteps s l).2.length ≤ 5 * l.length + (if s.run ≠ 0 then 1 else 0) := by
  intro l
  induction l with
  | nil =>
    intro s
    simp [encSteps]
  | cons p rest ih =>
    intro s
    rw [encSteps_cons]
    by_cases hp : p = s.prevInt
    · rw [if_pos hp]
      by_cases hf : s.run + 1 = 62 ∨ rest = []
      · rw [if_pos hf]
        have := ih ⟨s.cache, s.prevInt, s.prev, 0⟩
        simp only [List.length_cons]
        simp only [ne_eq, not_true_eq_false, if_false] at this ⊢
        omega
      · rw [if_neg hf]
        have := ih ⟨s.cache, s.prevInt, s.prev, s.run + 1⟩
        simp only [ne_eq, List.length_cons] at this ⊢
        split at this <;> split <;> omega
    · rw [if_neg hp]
      have hflush : (if s.run ≠ 0 then [0xC0 + (s.run - 1)] else
          ([] : List Nat)).length ≤ (if s.run ≠ 0 then 1 else 0) := by
        split <;> simp
      by_cases hhit : s.cache.getD (pxHash p) pxZero = p
      · rw [if_pos hhit]
        have := ih ⟨s.cache, p, p, 0⟩
        simp only [List.length_append, List.length_cons] at *
        simp only [ne_eq, not_true_eq_false, if_false] at this
        split at hflush <;> split <;> omega
      · rw [if_neg hhit]
        have := ih ⟨s.cache.set (pxHash p) p, p, p, 0⟩
        have hop := opBytes_length_le s.prev p
        simp only [List.length_append, List.length_cons] at *
        simp only [ne_eq, not_true_eq_false, if_false] at this
        split at hflush <;> split <;> omega

/-- C6 (amended): no BufferSizeMismatch error exists anywhere in the
code, and the two encoders disagree on short buffers.  With valid
dimensions and a channels-4 pixel buffer *shorter* than
`width·height·channels` (but a whole number of pixels), `qoi.py` — whose
loop runs over the actual buffer length — returns an encoded stream of
just the pixels present, while `qoi2.py` — whose loop runs to
`width·height·channels` regardless — fails with a Python `IndexError`
on the out-of-range pixel reads, not with a structured buffer-size
error. -/
theorem c6_short_buffer_encodes (pixels : List Nat) (w h cs : Nat)
    (hw : w ≠ 0) (hh : h ≠ 0) (hcs : cs ≤ 1) (hmax : h < QOI_PIXELS_MAX / w)
    (hlen4 : pixels.length % 4 = 0) (hshort : pixels.length < w * h * 4) :
    (∃ out, qoiEncode pixels w h 4 cs = some out) ∧
      qoi2Encode pixels w h 4 cs = none := by
  constructor
  · obtain ⟨l, hl, hlen⟩ := toPixels4_of_mod pixels hlen4
    have hbound : (encSteps encInit l).2.length ≤ 5 * l.length := by
      have := encSteps_body_length l encInit
      simpa [encInit] using this
    refine ⟨headerBytes w h 4 cs ++ (encSteps encInit l).2 ++ endMarker, ?_⟩
    unfold qoiEncode
    rw [if_neg (by push_neg; exact ⟨hw, hh, by omega, by omega, by omega,
      by omega⟩)]
    rw [if_pos rfl, hl]
    dsimp only
    rw [if_pos (by omega)]
  · unfold qoi2Encode
    rw [if_neg (by push_neg; exact ⟨hw, hh, by omega, by omega, by omega,
      by omega⟩)]
    rw [if_pos hshort]

/-- Witness for C6 (amended): a one-pixel buffer declared as a 2×1 image
(4 bytes instead of 8): `qoi.py` encodes it successfully, `qoi2.py`
fails. -/
theorem c6_witness :
    (∃ out, qoiEncode [1, 2, 3, 4] 2 1 4 0 = some out) ∧
      qoi2Encode [1, 2, 3, 4] 2 1 4 0 = none :=
  c6_short_buffer_encodes [1, 2, 3, 4] 2 1 0 (by decide) (by decide)
    (by decide) (by norm_num [QOI_PIXELS_MAX]) (by decide) (by decide)

/-! ## Run aggregation (C8) -/

/-- Encoding `n ≥ 1` copies of the run-check pixel `p` from a pending
run of `r ≤ 61` emits `⌊(r+n-1)/62⌋` full `RUN(61) = 0xFD` chunks
followed by `RUN((r+n-1) mod 62)`, and leaves cache and both
previous-pixel fields unchanged. -/
theorem encSteps_replicate :
    ∀ (n r : Nat) (ce : List Px) (p q : Px), 1 ≤ n → r ≤ 61 →
      encSteps ⟨ce, p, q, r⟩ (List.replicate n p) =
        (⟨ce, p, q, 0⟩, List.replicate ((r + n - 1) / 62) 0xFD ++
          [0xC0 + (r + n - 1) % 62]) := by
  intro n
  induction n with
  | zero => intro r ce p q hn _; omega
  | succ m ih =>
    intro r ce p q _ hr
    rw [List.replicate_succ, encSteps_cons]
    rw [if_pos rfl]
    by_cases hm : m = 0
    · subst hm
      rw [if_pos (Or.inr (show List.replicate 0 p = [] from rfl))]
      rw [show (r + (0 + 1) - 1) / 62 = 0 from by omega,
        show (r + (0 + 1) - 1) % 62 = r from by omega]
      simp [encSteps]
    · by_cases hflush : r + 1 = 62
      · rw [if_pos (Or.inl hflush)]
        have hrec := ih 0 ce p q (by omega) (by omega)
        rw [show (⟨ce, p, q, r⟩ : EncStatePy).cache = ce from rfl,
          show (⟨ce, p, q, r⟩ : EncStatePy).prevInt = p from rfl,
          show (⟨ce, p, q, r⟩ : EncStatePy).prev = q from rfl,
          show (⟨ce, p, q, r⟩ : EncStatePy).run = r from rfl, hrec]
        rw [show (r + (m + 1) - 1) / 62 = (0 + m - 1) / 62 + 1 from by omega,
          show (r + (m + 1) - 1) % 62 = (0 + m - 1) % 62 from by omega,
          show (0xC0 : Nat) + r = 0xFD from by omega]
        simp [List.replicate_succ]
      · rw [if_neg (by
          rw [not_or]
          exact ⟨by simpa using hflush, by simp [List.replicate, hm]⟩)]
        have hrec := ih (r + 1) ce p q (by omega) (by omega)
        rw [show (⟨ce, p, q, r⟩ : EncStatePy).cache = ce from rfl,
          show (⟨ce, p, q, r⟩ : EncStatePy).prevInt = p from rfl,
          show (⟨ce, p, q, r⟩ : EncStatePy).prev = q from rfl,
          show (⟨ce, p, q, r⟩ : EncStatePy).run = r from rfl, hrec]
        rw [show r + 1 + m - 1 = r + (m + 1) - 1 from by omega]

/-- C8 (amended): for 100 identical pixels the encoded body is exactly
`[0xFD, 0xE5]` (RUN 62 then RUN 38) **only when the pixel is
`(255,0,0,0)` — `qoi.py`'s buggy initial `prev_px_int`** — so that all
100 pixels are run-absorbed.  For every other pixel value, including the
component registers' initial `(0,0,0,255)` (which is *not* run-absorbed:
it emits DIFF `6A`), the body is the first pixel's non-RUN opcode
followed by `0xFD` and `0xE4` (RUN 62 then RUN 37 covering the
remaining 99 pixels). -/
theorem c8_run_structure (px : Px) (w h cs : Nat)
    (hb : pxBytes px) (hw : w ≠ 0) (hh : h ≠ 0) (hwh : w * h = 100)
    (hcs : cs ≤ 1) :
    qoiEncode (flatten4 (List.replicate 100 px)) w h 4 cs =
      some (headerBytes w h 4 cs ++
        (if px = prevPxInt then [0xFD, 0xE5]
         else (encSteps encInit [px]).2 ++ [0xFD, 0xE4]) ++ endMarker) := by
  have hbody : (encSteps encInit (List.replicate 100 px)).2 =
      (if px = prevPxInt then [0xFD, 0xE5]
       else (encSteps encInit [px]).2 ++ [0xFD, 0xE4]) := by
    by_cases hpx : px = prevPxInt
    · rw [if_pos hpx]
      subst hpx
      rw [show encInit =
          ⟨List.replicate 64 pxZero, prevPxInt, pxInit, 0⟩ from rfl,
        encSteps_replicate 100 0 (List.replicate 64 pxZero) prevPxInt pxInit
          (by omega) (by omega)]
      decide
    · rw [if_neg hpx]
      rw [show (100 : Nat) = 99 + 1 from rfl, List.replicate_succ,
        encSteps_cons]
      rw [if_neg (show ¬ px = encInit.prevInt from hpx)]
      by_cases hhit : encInit.cache.getD (pxHash px) pxZero = px
      · rw [if_pos hhit,
          encSteps_replicate 99 0 encInit.cache px px (by omega) (by omega)]
        rw [show ([px] : List Px) = px :: [] from rfl, encSteps_cons]
        rw [if_neg (show ¬ px = encInit.prevInt from hpx), if_pos hhit]
        simp [encSteps]
      · rw [if_neg hhit,
          encSteps_replicate 99 0 (encInit.cache.set (pxHash px) px) px px
            (by omega) (by omega)]
        rw [show ([px] : List Px) = px :: [] from rfl, encSteps_cons]
        rw [if_neg (show ¬ px = encInit.prevInt from hpx), if_neg hhit]
        simp [encSteps]
  have hw100 : w ≤ 100 := by
    calc w = w * 1 := (Nat.mul_one w).symm
    _ ≤ w * h := Nat.mul_le_mul_left w (by omega)
    _ = 100 := hwh
  have hh100 : h ≤ 100 := by
    calc h = 1 * h := (Nat.one_mul h).symm
    _ ≤ w * h := Nat.mul_le_mul_right h (by omega)
    _ = 100 := hwh
  have hdiv : h < QOI_PIXELS_MAX / w := by
    have hmono : QOI_PIXELS_MAX / 100 ≤ QOI_PIXELS_MAX / w :=
      Nat.div_le_div_left hw100 (by omega)
    have h4m : (4000000 : Nat) = QOI_PIXELS_MAX / 100 := by
      norm_num [QOI_PIXELS_MAX]
    omega
  have hblen : (if px = prevPxInt then [0xFD, 0xE5]
      else (encSteps encInit [px]).2 ++ [0xFD, 0xE4]).length ≤ 7 := by
    split
    · simp
    · have hbb := encSteps_body_length [px] encInit
      have h0 : (if encInit.run ≠ 0 then 1 else 0) = 0 := rfl
      rw [h0] at hbb
      simp only [List.length_append, List.length_singleton,
        List.length_cons, List.length_nil] at hbb ⊢
      omega
  unfold qoiEncode
  rw [if_neg (by
    push_neg
    exact ⟨hw, hh, by omega, by omega, by omega, by omega⟩)]
  rw [if_pos rfl, toPixels4_flatten4]
  dsimp only
  rw [hbody, if_pos (by omega)]

/-- Witness for C8 (amended): 100 copies of `(255,0,0,0)` — equal to
`qoi.py`'s initial `prev_px_int` — as a 10×10 image produce exactly the
two-RUN body `FD E5`. -/
theorem c8_witness :
    qoiEncode (flatten4 (List.replicate 100 prevPxInt)) 10 10 4 0 =
      some (headerBytes 10 10 4 0 ++
        (if prevPxInt = prevPxInt then [0xFD, 0xE5]
         else (encSteps encInit [prevPxInt]).2 ++ [0xFD, 0xE4]) ++
          endMarker) :=
  c8_run_structure prevPxInt 10 10 0 (by decide) (by decide) (by decide)
    (by decide) (by decide)

/-! ## Round-trip machinery (C1): cache-relation lemmas -/

theorem pxHash_pxInit : pxHash pxInit = 53 := by decide

theorem cacheRel_get_hit (ce cd : List Px) (p : Px)
    (hrel : cacheRel ce cd) (hhit : ce.getD (pxHash p) pxZero = p) :
    cd.getD (pxHash p) pxZero = p := by
  rcases hrel (pxHash p) (pxHash_lt p) with heq | ⟨h53, hce, _⟩
  · rw [heq, hhit]
  · exfalso
    rw [h53] at hce
    rw [h53, hce] at hhit
    have : pxHash pxZero = 0 := by decide
    rw [← hhit] at h53
    rw [this] at h53
    exact absurd h53 (by omega)

/-- The decoder's RUN-step cache write preserves the relation. -/
theorem cacheRel_set_run (ce cd : List Px) (prev : Px)
    (hcd : cd.length = 64)
    (hrel : cacheRel ce cd) (hsync : prevSync ce prev) :
    cacheRel ce (cd.set (pxHash prev) prev) := by
  intro i hi
  by_cases hij : pxHash prev = i
  · rcases hsync with hce | ⟨hprev, hce53⟩
    · left
      rw [← hij, listGetD_set_self cd (pxHash prev) prev pxZero
        (by rw [hcd]; exact pxHash_lt prev), hce]
    · right
      subst hprev
      rw [pxHash_pxInit] at hij
      refine ⟨by omega, ?_, ?_⟩
      · rw [← hij]; exact hce53
      · rw [← hij, pxHash_pxInit]
        exact listGetD_set_self cd 53 pxInit pxZero (by rw [hcd]; omega)
  · rw [listGetD_set_ne cd (pxHash prev) i prev pxZero hij]
    exact hrel i hi

/-- Writing a value the encoder already holds at slot `j` into the
decoder cache preserves the relation (INDEX-hit step). -/
theorem cacheRel_set_hit (ce cd : List Px) (j : Nat) (v : Px)
    (hj : j < 64) (hcd : cd.length = 64)
    (hrel : cacheRel ce cd) (hv : ce.getD j pxZero = v) :
    cacheRel ce (cd.set j v) := by
  intro i hi
  by_cases hij : j = i
  · left
    rw [← hij, listGetD_set_self cd j v pxZero (by omega), hv]
  · rw [listGetD_set_ne cd j i v pxZero hij]
    exact hrel i hi

/-- Writing the same value at the same slot on both sides preserves the
relation (cache-miss step). -/
theorem cacheRel_set_both (ce cd : List Px) (j : Nat) (v : Px)
    (hj : j < 64) (hce : ce.length = 64) (hcd : cd.length = 64)
    (hrel : cacheRel ce cd) :
    cacheRel (ce.set j v) (cd.set j v) := by
  intro i hi
  by_cases hij : j = i
  · left
    rw [← hij, listGetD_set_self cd j v pxZero (by omega),
      listGetD_set_self ce j v pxZero (by omega)]
  · rw [listGetD_set_ne cd j i v pxZero hij,
      listGetD_set_ne ce j i v pxZero hij]
    exact hrel i hi

/-! ## Round-trip machinery (C1): one-opcode decoder steps -/

theorem decStep_run_op (data : List Nat) (dl : Nat) (cd : List Px) (px : Px)
    (pos r2 : Nat) (hdl : pos < dl) (hb1 : data.getD pos 0 = 192 + r2)
    (hr : r2 ≤ 61) :
    decStep data dl ⟨cd, px, 0, pos⟩ =
      ⟨cd.set (pxHash px) px, px, r2, pos + 1⟩ := by
  unfold decStep decDispatch
  rw [if_neg (by simp), if_pos hdl]
  dsimp only
  rw [hb1]
  rw [if_neg (by omega), if_neg (by omega), if_neg (by omega),
    if_neg (by omega), if_neg (by omega), if_pos (by omega : (192 + r2) / 64 = 3)]
  rw [show (192 + r2) % 64 = r2 from by omega]

theorem decStep_index_op (data : List Nat) (dl : Nat) (cd : List Px)
    (px : Px) (pos j : Nat) (hdl : pos < dl) (hb1 : data.getD pos 0 = j)
    (hj : j < 64) :
    decStep data dl ⟨cd, px, 0, pos⟩ =
      ⟨cd.set (pxHash (cd.getD j pxZero)) (cd.getD j pxZero),
        cd.getD j pxZero, 0, pos + 1⟩ := by
  unfold decStep decDispatch
  rw [if_neg (by simp), if_pos hdl]
  dsimp only
  rw [hb1]
  rw [if_neg (by omega), if_neg (by omega), if_pos (by omega : j / 64 = 0)]
  rw [show j % 64 = j from by omega]

theorem decStep_rgb_op (data : List Nat) (dl : Nat) (cd : List Px) (px : Px)
    (pos a b c : Nat) (hdl : pos < dl)
    (h0 : data.getD pos 0 = 254) (h1 : data.getD (pos + 1) 0 = a)
    (h2 : data.getD (pos + 2) 0 = b) (h3 : data.getD (pos + 3) 0 = c) :
    decStep data dl ⟨cd, px, 0, pos⟩ =
      ⟨cd.set (pxHash ⟨a, b, c, px.a⟩) ⟨a, b, c, px.a⟩,
        ⟨a, b, c, px.a⟩, 0, pos + 4⟩ := by
  unfold decStep decDispatch
  rw [if_neg (by simp), if_pos hdl]
  dsimp only
  rw [h0, h1, h2, h3]
  rw [if_pos rfl]

theorem decStep_rgba_op (data : List Nat) (dl : Nat) (cd : List Px) (px : Px)
    (pos a b c d : Nat) (hdl : pos < dl)
    (h0 : data.getD pos 0 = 255) (h1 : data.getD (pos + 1) 0 = a)
    (h2 : data.getD (pos + 2) 0 = b) (h3 : data.getD (pos + 3) 0 = c)
    (h4 : data.getD (pos + 4) 0 = d) :
    decStep data dl ⟨cd, px, 0, pos⟩ =
      ⟨cd.set (pxHash ⟨a, b, c, d⟩) ⟨a, b, c, d⟩, ⟨a, b, c, d⟩, 0,
        pos + 5⟩ := by
  unfold decStep decDispatch
  rw [if_neg (by simp), if_pos hdl]
  dsimp only
  rw [h0, h1, h2, h3, h4]
  rw [if_neg (by omega), if_pos rfl]

theorem decStep_diff_op (data : List Nat) (dl : Nat) (cd : List Px) (px : Px)
    (pos d1 d2 d3 : Nat) (hdl : pos < dl)
    (hb1 : data.getD pos 0 = 64 + 16 * d1 + 4 * d2 + d3)
    (hd1 : d1 < 4) (hd2 : d2 < 4) (hd3 : d3 < 4) :
    decStep data dl ⟨cd, px, 0, pos⟩ =
      ⟨cd.set (pxHash ⟨(px.r + d1 + 254) % 256, (px.g + d2 + 254) % 256,
          (px.b + d3 + 254) % 256, px.a⟩)
        ⟨(px.r + d1 + 254) % 256, (px.g + d2 + 254) % 256,
          (px.b + d3 + 254) % 256, px.a⟩,
        ⟨(px.r + d1 + 254) % 256, (px.g + d2 + 254) % 256,
          (px.b + d3 + 254) % 256, px.a⟩, 0, pos + 1⟩ := by
  unfold decStep decDispatch
  rw [if_neg (by simp), if_pos hdl]
  dsimp only
  rw [hb1]
  rw [if_neg (by omega), if_neg (by omega), if_neg (by omega),
    if_pos (by omega : (64 + 16 * d1 + 4 * d2 + d3) / 64 = 1)]
  rw [show (64 + 16 * d1 + 4 * d2 + d3) / 16 % 4 = d1 from by omega,
    show (64 + 16 * d1 + 4 * d2 + d3) / 4 % 4 = d2 from by omega,
    show (64 + 16 * d1 + 4 * d2 + d3) % 4 = d3 from by omega]

theorem decStep_luma_op (data : List Nat) (dl : Nat) (cd : List Px) (px : Px)
    (pos g6 rr bb : Nat) (hdl : pos < dl)
    (hb1 : data.getD pos 0 = 128 + g6) (hg : g6 < 64)
    (hb2 : data.getD (pos + 1) 0 = 16 * rr + bb) (hrr : rr < 16)
    (hbb : bb < 16) :
    decStep data dl ⟨cd, px, 0, pos⟩ =
      ⟨cd.set (pxHash ⟨(px.r + g6 + rr + 216) % 256,
          (px.g + g6 + 224) % 256, (px.b + g6 + bb + 216) % 256, px.a⟩)
        ⟨(px.r + g6 + rr + 216) % 256, (px.g + g6 + 224) % 256,
          (px.b + g6 + bb + 216) % 256, px.a⟩,
        ⟨(px.r + g6 + rr + 216) % 256, (px.g + g6 + 224) % 256,
          (px.b + g6 + bb + 216) % 256, px.a⟩, 0, pos + 2⟩ := by
  unfold decStep decDispatch
  rw [if_neg (by simp), if_pos hdl]
  dsimp only
  rw [hb1, hb2]
  rw [if_neg (by omega), if_neg (by omega), if_neg (by omega),
    if_neg (by omega), if_pos (by omega : (128 + g6) / 64 = 2)]
  rw [show (128 + g6) % 64 = g6 from by omega,
    show (16 * rr + bb) / 16 % 16 = rr from by omega,
    show (16 * rr + bb) % 16 = bb from by omega]

/-- **Opcode round-trip**: reading the bytes the encoder emitted for a
cache-missing pixel `p` (DIFF / LUMA / RGB / RGBA) from decoder state
`(cd, prev, 0, pos)` reconstructs exactly `p`, stores it at `hash(p)`,
and advances the cursor past the opcode. -/
theorem decStep_opBytes (data : List Nat) (dl : Nat) (cd : List Px)
    (pos : Nat) (tail : List Nat) (prev p : Px)
    (hbp : pxBytes prev) (hb : pxBytes p)
    (hdrop : data.drop pos = opBytes prev p ++ tail) (hdl : pos < dl) :
    decStep data dl ⟨cd, prev, 0, pos⟩ =
      ⟨cd.set (pxHash p) p, p, 0, pos + (opBytes prev p).length⟩ := by
  obtain ⟨pr, pg, pb, pa⟩ := p
  obtain ⟨qr, qg, qb, qa⟩ := prev
  obtain ⟨hbr, hbg, hbb, hba⟩ := hb
  obtain ⟨hqr, hqg, hqb, hqa⟩ := hbp
  simp only [Px.mk.injEq] at *
  by_cases ha : pa = qa
  · by_cases hdiff : -2 ≤ (pr : Int) - qr ∧ (pr : Int) - qr ≤ 1 ∧
        -2 ≤ (pg : Int) - qg ∧ (pg : Int) - qg ≤ 1 ∧
        -2 ≤ (pb : Int) - qb ∧ (pb : Int) - qb ≤ 1
    · -- DIFF
      have hbytes : opBytes ⟨qr, qg, qb, qa⟩ ⟨pr, pg, pb, pa⟩ =
          [64 + 16 * ((pr : Int) - qr + 2).toNat +
            4 * ((pg : Int) - qg + 2).toNat + ((pb : Int) - qb + 2).toNat] := by
        unfold opBytes
        rw [if_pos ha]
        dsimp only
        rw [if_pos hdiff]
        congr 1
        omega
      rw [hbytes] at hdrop
      obtain ⟨h0, -⟩ := drop_eq_cons_getD data pos _ tail 0 hdrop
      rw [decStep_diff_op data dl cd ⟨qr, qg, qb, qa⟩ pos
        ((pr : Int) - qr + 2).toNat ((pg : Int) - qg + 2).toNat
        ((pb : Int) - qb + 2).toNat hdl h0 (by omega) (by omega) (by omega)]
      rw [hbytes]
      have e1 : (qr + ((pr : Int) - qr + 2).toNat + 254) % 256 = pr := by
        omega
      have e2 : (qg + ((pg : Int) - qg + 2).toNat + 254) % 256 = pg := by
        omega
      have e3 : (qb + ((pb : Int) - qb + 2).toNat + 254) % 256 = pb := by
        omega
      simp only [e1, e2, e3, ha, List.length_singleton]
    · by_cases hluma : -32 ≤ (pg : Int) - qg ∧ (pg : Int) - qg ≤ 31 ∧
          -8 ≤ ((pr : Int) - qr) - ((pg : Int) - qg) ∧
          ((pr : Int) - qr) - ((pg : Int) - qg) ≤ 7 ∧
          -8 ≤ ((pb : Int) - qb) - ((pg : Int) - qg) ∧
          ((pb : Int) - qb) - ((pg : Int) - qg) ≤ 7
      · -- LUMA
        have hbytes : opBytes ⟨qr, qg, qb, qa⟩ ⟨pr, pg, pb, pa⟩ =
            [128 + ((pg : Int) - qg + 32).toNat,
             16 * (((pr : Int) - qr) - ((pg : Int) - qg) + 8).toNat +
               (((pb : Int) - qb) - ((pg : Int) - qg) + 8).toNat] := by
          unfold opBytes
          rw [if_pos ha]
          dsimp only
          rw [if_neg (by tauto), if_pos (by tauto)]
          simp only [List.cons.injEq, and_true]
          omega
        rw [hbytes] at hdrop
        obtain ⟨h0, hdrop1⟩ := drop_eq_cons_getD data pos _ _ 0 hdrop
        obtain ⟨h1, -⟩ := drop_eq_cons_getD data (pos + 1) _ _ 0 hdrop1
        rw [decStep_luma_op data dl cd ⟨qr, qg, qb, qa⟩ pos
          ((pg : Int) - qg + 32).toNat
          (((pr : Int) - qr) - ((pg : Int) - qg) + 8).toNat
          (((pb : Int) - qb) - ((pg : Int) - qg) + 8).toNat hdl h0
          (by omega) h1 (by omega) (by omega)]
        rw [hbytes]
        have e1 : (qr + ((pg : Int) - qg + 32).toNat +
            (((pr : Int) - qr) - ((pg : Int) - qg) + 8).toNat + 216) % 256 =
            pr := by omega
        have e2 : (qg + ((pg : Int) - qg + 32).toNat + 224) % 256 = pg := by
          omega
        have e3 : (qb + ((pg : Int) - qg + 32).toNat +
            (((pb : Int) - qb) - ((pg : Int) - qg) + 8).toNat + 216) % 256 =
            pb := by omega
        simp only [e1, e2, e3, ha]
        rfl
      · -- RGB
        have hbytes : opBytes ⟨qr, qg, qb, qa⟩ ⟨pr, pg, pb, pa⟩ =
            [254, pr, pg, pb] := by
          unfold opBytes
          rw [if_pos ha]
          dsimp only
          rw [if_neg (by tauto), if_neg (by tauto)]
        rw [hbytes] at hdrop
        obtain ⟨h0, hdrop1⟩ := drop_eq_cons_getD data pos _ _ 0 hdrop
        obtain ⟨h1, hdrop2⟩ := drop_eq_cons_getD data (pos + 1) _ _ 0 hdrop1
        obtain ⟨h2, hdrop3⟩ := drop_eq_cons_getD data (pos + 2) _ _ 0 hdrop2
        obtain ⟨h3, -⟩ := drop_eq_cons_getD data (pos + 3) _ _ 0 hdrop3
        rw [decStep_rgb_op data dl cd ⟨qr, qg, qb, qa⟩ pos pr pg pb hdl
          h0 h1 h2 h3]
        rw [hbytes]
        simp only [ha]
        rfl
  · -- RGBA
    have hbytes : opBytes ⟨qr, qg, qb, qa⟩ ⟨pr, pg, pb, pa⟩ =
        [255, pr, pg, pb, pa] := by
      unfold opBytes
      rw [if_neg ha]
    rw [hbytes] at hdrop
    obtain ⟨h0, hdrop1⟩ := drop_eq_cons_getD data pos _ _ 0 hdrop
    obtain ⟨h1, hdrop2⟩ := drop_eq_cons_getD data (pos + 1) _ _ 0 hdrop1
    obtain ⟨h2, hdrop3⟩ := drop_eq_cons_getD data (pos + 2) _ _ 0 hdrop2
    obtain ⟨h3, hdrop4⟩ := drop_eq_cons_getD data (pos + 3) _ _ 0 hdrop3
    obtain ⟨h4, -⟩ := drop_eq_cons_getD data (pos + 4) _ _ 0 hdrop4
    rw [decStep_rgba_op data dl cd ⟨qr, qg, qb, qa⟩ pos pr pg pb pa hdl
      h0 h1 h2 h3 h4]
    rw [hbytes]
    rfl

theorem drop_eq_append_drop {α : Type} (data : List α) (A : List α) :
    ∀ (pos : Nat) (B : List α), data.drop pos = A ++ B →
      data.drop (pos + A.length) = B := by
  induction A with
  | nil => intro pos B h; simpa using h
  | cons x xs ih =>
    intro pos B h
    obtain ⟨-, h1⟩ := drop_eq_cons_getD data pos x (xs ++ B) x
      (by simpa using h)
    have h2 := ih (pos + 1) B h1
    rw [show pos + (x :: xs).length = pos + 1 + xs.length from by
      simp [List.length_cons]; omega]
    exact h2

theorem cons_replicate_append {α : Type} (r : Nat) (a : α) (l : List α) :
    a :: (List.replicate r a ++ l) = List.replicate r a ++ a :: l := by
  induction r with
  | zero => rfl
  | succ n ih => simp [List.replicate_succ, ih]

/-- **Encoder–decoder simulation** (`qoi.py`): if the decoder state is
related to the encoder state (`cacheRel`, `prevSync`, same previous
pixel, no pending decoder run) and the upcoming bytes are exactly what
the encoder emits for the remaining pixels `l` (with `r ≤ 61` of them
already absorbed into a pending run), then decoding
`r + l.length` pixels reproduces the pending copies followed by `l`. -/
theorem encdec_sim :
    ∀ (l : List Px) (ce : List Px) (prev : Px) (r : Nat) (cd : List Px)
      (pos : Nat) (data : List Nat) (dl : Nat) (tail : List Nat),
      ce.length = 64 → cd.length = 64 →
      (∀ q ∈ l, pxBytes q) → pxBytes prev →
      r ≤ 61 → (r ≠ 0 → l ≠ []) →
      cacheRel ce cd → prevSync ce prev →
      data.drop pos = (encLoop ⟨ce, prev, r⟩ l).2 ++ tail →
      dl = pos + (encLoop ⟨ce, prev, r⟩ l).2.length →
      (decodeN data dl (r + l.length) ⟨cd, prev, 0, pos⟩).1 =
        List.replicate r prev ++ l := by
  intro l
  induction l with
  | nil =>
    intro ce prev r cd pos data dl tail hce hcd hbl hbp hr hrl hrel hsync
      hdrop hdl
    have hr0 : r = 0 := by
      by_contra hne
      exact (hrl hne) rfl
    subst hr0
    rfl
  | cons p rest ih =>
    intro ce prev r cd pos data dl tail hce hcd hbl hbp hr hrl hrel hsync
      hdrop hdl
    have hbpx : pxBytes p := hbl p (List.mem_cons_self p rest)
    have hbrest : ∀ q ∈ rest, pxBytes q :=
      fun q hq => hbl q (List.mem_cons_of_mem p hq)
    rw [encLoop_cons] at hdrop hdl
    dsimp only at hdrop hdl
    by_cases hp : p = prev
    · -- run-absorbed pixel
      rw [if_pos hp] at hdrop hdl
      by_cases hf : r + 1 = 62 ∨ rest = []
      · -- flush: the decoder reads RUN(r) and emits r+1 copies
        rw [if_pos hf] at hdrop hdl
        rw [List.cons_append] at hdrop
        obtain ⟨hb1, hdrop1⟩ := drop_eq_cons_getD data pos _ _ 0 hdrop
        have hposlt : pos < dl := by
          rw [hdl]; simp only [List.length_cons]; omega
        have hstep := decStep_run_op data dl cd prev pos r hposlt hb1 hr
        rw [show r + (p :: rest).length = (r + rest.length) + 1 from by
          simp [List.length_cons]; omega, decodeN_succ, hstep]
        dsimp only
        rw [decodeN_drain data dl r rest.length
          (cd.set (pxHash prev) prev) prev (pos + 1)]
        dsimp only
        have hrec := ih ce prev 0 (cd.set (pxHash prev) prev) (pos + 1)
          data dl tail hce (by rw [List.length_set]; exact hcd) hbrest hbp
          (by omega) (by simp)
          (cacheRel_set_run ce cd prev hcd hrel hsync) hsync hdrop1
          (by rw [hdl]; simp only [List.length_cons]; omega)
        simp only [Nat.zero_add] at hrec
        rw [hrec]
        simp only [List.replicate, List.nil_append] at *
        rw [hp]
        exact cons_replicate_append r prev rest
      · -- keep absorbing: no byte consumed, recurse with r+1
        rw [if_neg hf] at hdrop hdl
        rw [not_or] at hf
        have hrec := ih ce prev (r + 1) cd pos data dl tail hce hcd hbrest
          hbp (by omega) (fun _ => hf.2) hrel hsync hdrop hdl
        rw [show r + (p :: rest).length = (r + 1) + rest.length from by
          simp [List.length_cons]; omega, hrec, hp]
        rw [List.replicate_succ']
        simp
    · -- a differing pixel: flush any pending run, then one opcode
      rw [if_neg hp] at hdrop hdl
      -- the tail of the emission is what a run-free encoder state emits
      have hemit0 : (encLoop ⟨ce, prev, 0⟩ (p :: rest)).2 =
          (if ce.getD (pxHash p) pxZero = p then
            pxHash p :: (encLoop ⟨ce, p, 0⟩ rest).2
          else opBytes prev p ++
            (encLoop ⟨ce.set (pxHash p) p, p, 0⟩ rest).2) := by
        by_cases hhit : ce.getD (pxHash p) pxZero = p <;>
          simp [encLoop_cons, hp, hhit] <;> split <;> rfl
      have main0 : ∀ (cd2 : List Px) (pos2 : Nat), cd2.length = 64 →
          cacheRel ce cd2 →
          data.drop pos2 = (encLoop ⟨ce, prev, 0⟩ (p :: rest)).2 ++ tail →
          dl = pos2 + (encLoop ⟨ce, prev, 0⟩ (p :: rest)).2.length →
          (decodeN data dl (p :: rest).length ⟨cd2, prev, 0, pos2⟩).1 =
            p :: rest := by
        intro cd2 pos2 hcd2 hrel2 hdrop2 hdl2
        rw [hemit0] at hdrop2 hdl2
        by_cases hhit : ce.getD (pxHash p) pxZero = p
        · -- INDEX
          rw [if_pos hhit] at hdrop2 hdl2
          rw [List.cons_append] at hdrop2
          obtain ⟨hb1, hdrop3⟩ := drop_eq_cons_getD data pos2 _ _ 0 hdrop2
          have hposlt : pos2 < dl := by
            rw [hdl2]; simp only [List.length_cons]; omega
          have hstep := decStep_index_op data dl cd2 prev pos2 (pxHash p)
            hposlt hb1 (pxHash_lt p)
          have hv : cd2.getD (pxHash p) pxZero = p :=
            cacheRel_get_hit ce cd2 p hrel2 hhit
          rw [hv] at hstep
          rw [show (p :: rest).length = rest.length + 1 from rfl,
            decodeN_succ, hstep]
          dsimp only
          have hrec := ih ce p 0 (cd2.set (pxHash p) p) (pos2 + 1) data dl
            tail hce (by rw [List.length_set]; exact hcd2) hbrest hbpx
            (by omega) (by simp)
            (cacheRel_set_hit ce cd2 (pxHash p) p (pxHash_lt p) hcd2 hrel2
              hhit)
            (Or.inl hhit) hdrop3
            (by rw [hdl2]; simp only [List.length_cons]; omega)
          simp only [Nat.zero_add] at hrec
          rw [hrec]
          simp [List.replicate]
        · -- DIFF / LUMA / RGB / RGBA
          rw [if_neg hhit] at hdrop2 hdl2
          rw [List.append_assoc] at hdrop2
          have hposlt : pos2 < dl := by
            rw [hdl2]
            have : (opBytes prev p).length ≠ 0 := by
              unfold opBytes
              split
              · dsimp only
                split
                · simp
                · split
                  · simp
                  · simp
              · simp
            simp only [List.length_append]
            omega
          have hstep := decStep_opBytes data dl cd2 pos2
            ((encLoop ⟨ce.set (pxHash p) p, p, 0⟩ rest).2 ++ tail) prev p
            hbp hbpx hdrop2 hposlt
          rw [show (p :: rest).length = rest.length + 1 from rfl,
            decodeN_succ, hstep]
          dsimp only
          have hdrop4 := drop_eq_append_drop data (opBytes prev p) pos2 _
            hdrop2
          have hrec := ih (ce.set (pxHash p) p) p 0 (cd2.set (pxHash p) p)
            (pos2 + (opBytes prev p).length) data dl tail
            (by rw [List.length_set]; exact hce)
            (by rw [List.length_set]; exact hcd2) hbrest hbpx
            (by omega) (by simp)
            (cacheRel_set_both ce cd2 (pxHash p) p (pxHash_lt p) hce hcd2
              hrel2)
            (Or.inl (listGetD_set_self ce (pxHash p) p pxZero
              (by rw [hce]; exact pxHash_lt p)))
            hdrop4
            (by rw [hdl2]; simp only [List.length_append]; omega)
          simp only [Nat.zero_add] at hrec
          rw [hrec]
          simp [List.replicate]
      by_cases hr0 : r = 0
      · -- no pending run: the opcode for p comes first
        subst hr0
        have hflush : (if (0 : Nat) ≠ 0 then [0xC0 + (0 - 1)] else
            ([] : List Nat)) = [] := by simp
        rw [hflush] at hdrop hdl
        simp only [List.nil_append] at hdrop hdl
        have hdrop5 : data.drop pos =
            (encLoop ⟨ce, prev, 0⟩ (p :: rest)).2 ++ tail := by
          rw [hemit0]
          by_cases hhit : ce.getD (pxHash p) pxZero = p
          · rw [if_pos hhit] at hdrop ⊢; exact hdrop
          · rw [if_neg hhit] at hdrop ⊢; exact hdrop
        have hdl5 : dl =
            pos + (encLoop ⟨ce, prev, 0⟩ (p :: rest)).2.length := by
          rw [hemit0]
          by_cases hhit : ce.getD (pxHash p) pxZero = p
          · rw [if_pos hhit] at hdl ⊢; exact hdl
          · rw [if_neg hhit] at hdl ⊢; exact hdl
        have hm := main0 cd pos hcd hrel hdrop5 hdl5
        simp only [Nat.zero_add, List.replicate_zero, List.nil_append]
        exact hm
      · -- pending run: RUN(r-1) opcode, then the opcode for p
        have hflushr : (if r ≠ 0 then [0xC0 + (r - 1)] else
            ([] : List Nat)) = [192 + (r - 1)] := by
          rw [if_pos hr0]
        rw [hflushr] at hdrop hdl
        have hdrop6 : data.drop pos = (192 + (r - 1)) ::
            ((encLoop ⟨ce, prev, 0⟩ (p :: rest)).2 ++ tail) := by
          rw [hemit0]
          by_cases hhit : ce.getD (pxHash p) pxZero = p
          · rw [if_pos hhit] at hdrop ⊢
            simpa using hdrop
          · rw [if_neg hhit] at hdrop ⊢
            simpa using hdrop
        have hdl6 : dl =
            (pos + 1) + (encLoop ⟨ce, prev, 0⟩ (p :: rest)).2.length := by
          rw [hemit0]
          by_cases hhit : ce.getD (pxHash p) pxZero = p
          · rw [if_pos hhit] at hdl ⊢
            dsimp only at hdl
            simp only [List.length_append, List.length_cons,
              List.length_singleton, List.length_nil] at hdl ⊢
            omega
          · rw [if_neg hhit] at hdl ⊢
            dsimp only at hdl
            simp only [List.length_append, List.length_cons,
              List.length_singleton, List.length_nil] at hdl ⊢
            omega
        obtain ⟨hb1, hdrop7⟩ := drop_eq_cons_getD data pos _ _ 0 hdrop6
        have hposlt : pos < dl := by omega
        have hstep := decStep_run_op data dl cd prev pos (r - 1) hposlt hb1
          (by omega)
        rw [show r + (p :: rest).length = (r + rest.length) + 1 from by
          simp [List.length_cons]; omega, decodeN_succ, hstep]
        dsimp only
        rw [show r + rest.length = (r - 1) + (rest.length + 1) from by omega]
        rw [decodeN_drain data dl (r - 1) (rest.length + 1)
          (cd.set (pxHash prev) prev) prev (pos + 1)]
        dsimp only
        have hm := main0 (cd.set (pxHash prev) prev) (pos + 1)
          (by rw [List.length_set]; exact hcd)
          (cacheRel_set_run ce cd prev hcd hrel hsync) hdrop7 hdl6
        simp only [List.length_cons] at hm
        rw [hm]
        rw [show prev :: (List.replicate (r - 1) prev ++ (p :: rest)) =
          (prev :: List.replicate (r - 1) prev) ++ (p :: rest) from rfl,
          ← List.replicate_succ,
          show r - 1 + 1 = r from by omega]

theorem flatten4_toPixels4 (bs : List Nat) (l : List Px)
    (h : toPixels4 bs = some l) : flatten4 l = bs := by
  suffices hgen : ∀ (n : Nat) (bs : List Nat) (l : List Px),
      bs.length ≤ n → toPixels4 bs = some l → flatten4 l = bs from
    hgen bs.length bs l le_rfl h
  intro n
  induction n with
  | zero =>
    intro bs l hle h
    match bs with
    | [] =>
      simp only [toPixels4, Option.some.injEq] at h
      rw [← h]
      rfl
    | x :: rest => simp at hle
  | succ m ih =>
    intro bs l hle h
    match bs with
    | [] =>
      simp only [toPixels4, Option.some.injEq] at h
      rw [← h]
      rfl
    | [a] => simp [toPixels4] at h
    | [a, b] => simp [toPixels4] at h
    | [a, b, c] => simp [toPixels4] at h
    | a :: b :: c :: d :: rest =>
      simp only [toPixels4, Option.map_eq_some'] at h
      obtain ⟨l2, hl2, hl⟩ := h
      rw [← hl]
      have := ih rest l2 (by simp only [List.length_cons] at hle; omega) hl2
      simp [flatten4, this]

theorem pxBytes_of_flatten4 (l : List Px)
    (hb : ∀ b ∈ flatten4 l, b < 256) : ∀ q ∈ l, pxBytes q := by
  induction l with
  | nil => intro q hq; simp at hq
  | cons p rest ih =>
    intro q hq
    simp only [flatten4, List.mem_cons] at hb
    rcases List.mem_cons.mp hq with hq | hq
    · subst hq
      exact ⟨hb q.r (Or.inl rfl), hb q.g (Or.inr (Or.inl rfl)),
        hb q.b (Or.inr (Or.inr (Or.inl rfl))),
        hb q.a (Or.inr (Or.inr (Or.inr (Or.inl rfl))))⟩
    · exact ih (fun b hbmem =>
        hb b (Or.inr (Or.inr (Or.inr (Or.inr hbmem))))) q hq

/-- The packing lemma inverted on the head: the first grouped pixel is
exactly the first four bytes of the buffer. -/
theorem toPixels4_cons_inv (P : List Nat) (x : Px) (xs : List Px)
    (h : toPixels4 P = some (x :: xs)) :
    P.take 4 = [x.r, x.g, x.b, x.a] := by
  match P with
  | [] => simp [toPixels4] at h
  | [a] => simp [toPixels4] at h
  | [a, b] => simp [toPixels4] at h
  | [a, b, c] => simp [toPixels4] at h
  | a :: b :: c :: d :: rest =>
    simp only [toPixels4, Option.map_eq_some'] at h
    obtain ⟨l2, hl2, hcons⟩ := h
    obtain ⟨hx, -⟩ := List.cons.inj hcons
    rw [← hx]
    rfl

/-- Every DIFF/LUMA/RGB/RGBA emission is at least one byte. -/
theorem opBytes_length_pos (prev p : Px) : 1 ≤ (opBytes prev p).length := by
  unfold opBytes
  by_cases h1 : p.a = prev.a
  · rw [if_pos h1]
    dsimp only
    split
    · simp
    · split <;> simp
  · rw [if_neg h1]
    simp

/-- On a consistent dual-prev state, `qoi.py`'s loop coincides with the
single-prev loop: same bytes, and the final state is again consistent. -/
theorem encSteps_toPy :
    ∀ (l : List Px) (s : EncState),
      encSteps (toPy s) l = (toPy (encLoop s l).1, (encLoop s l).2) := by
  intro l
  induction l with
  | nil => intro s; rfl
  | cons p rest ih =>
    intro s
    rw [encSteps_cons, encLoop_cons]
    dsimp only [toPy]
    by_cases hp : p = s.prev
    · rw [if_pos hp, if_pos hp]
      by_cases hf : s.run + 1 = 62 ∨ rest = []
      · rw [if_pos hf, if_pos hf]
        rw [show (⟨s.cache, s.prev, s.prev, 0⟩ : EncStatePy) =
          toPy ⟨s.cache, s.prev, 0⟩ from rfl, ih ⟨s.cache, s.prev, 0⟩]
        rfl
      · rw [if_neg hf, if_neg hf]
        rw [show (⟨s.cache, s.prev, s.prev, s.run + 1⟩ : EncStatePy) =
          toPy ⟨s.cache, s.prev, s.run + 1⟩ from rfl,
          ih ⟨s.cache, s.prev, s.run + 1⟩]
        rfl
    · rw [if_neg hp, if_neg hp]
      by_cases hhit : s.cache.getD (pxHash p) pxZero = p
      · rw [if_pos hhit, if_pos hhit]
        rw [show (⟨s.cache, p, p, 0⟩ : EncStatePy) =
          toPy ⟨s.cache, p, 0⟩ from rfl, ih ⟨s.cache, p, 0⟩]
        rfl
      · rw [if_neg hhit, if_neg hhit]
        rw [show (⟨s.cache.set (pxHash p) p, p, p, 0⟩ : EncStatePy) =
          toPy ⟨s.cache.set (pxHash p) p, p, 0⟩ from rfl,
          ih ⟨s.cache.set (pxHash p) p, p, 0⟩]
        rfl

/-- Decoding an encoded stream from the initial states: the first pixel
`x` of the image (not equal to the buggy `prev_px_int`, so not absorbed)
is reproduced by its INDEX / DIFF / LUMA / RGB / RGBA opcode, after
which encoder and decoder are synchronized and the simulation carries
the remaining pixels across. -/
theorem decodeN_encSteps_first (x : Px) (xs : List Px)
    (hx : x ≠ prevPxInt) (hxb : pxBytes x) (hxsb : ∀ q ∈ xs, pxBytes q)
    (data : List Nat) (dl : Nat)
    (hdrop : data.drop 14 = (encSteps encInit (x :: xs)).2 ++ endMarker)
    (hdl : dl = 14 + (encSteps encInit (x :: xs)).2.length) :
    (decodeN data dl (xs.length + 1) decInit).1 = x :: xs := by
  have hc0len : (List.replicate 64 pxZero).length = 64 :=
    List.length_replicate 64 pxZero
  have hj : pxHash x < 64 := pxHash_lt x
  by_cases hhit : (List.replicate 64 pxZero).getD (pxHash x) pxZero = x
  · -- first opcode: INDEX (the zero cache hits only for the zero pixel)
    have hbody : (encSteps encInit (x :: xs)).2 =
        pxHash x :: (encLoop ⟨List.replicate 64 pxZero, x, 0⟩ xs).2 := by
      rw [show encInit =
          ⟨List.replicate 64 pxZero, prevPxInt, pxInit, 0⟩ from rfl,
        encSteps_cons]
      dsimp only
      rw [if_neg hx, if_pos hhit,
        show (⟨List.replicate 64 pxZero, x, x, 0⟩ : EncStatePy) =
          toPy ⟨List.replicate 64 pxZero, x, 0⟩ from rfl,
        encSteps_toPy xs ⟨List.replicate 64 pxZero, x, 0⟩]
      simp
    rw [hbody] at hdrop hdl
    obtain ⟨hb1, hdrop1⟩ := drop_eq_cons_getD data 14 _ _ 0 hdrop
    have hdl14 : 14 < dl := by
      rw [hdl]; simp only [List.length_cons]; omega
    have hstep := decStep_index_op data dl (List.replicate 64 pxZero) pxInit
      14 (pxHash x) hdl14 hb1 hj
    rw [hhit] at hstep
    have hrel : cacheRel (List.replicate 64 pxZero)
        ((List.replicate 64 pxZero).set (pxHash x) x) := by
      intro i hi
      by_cases hij : i = pxHash x
      · subst hij
        exact Or.inl (by
          rw [listGetD_set_self _ _ _ _ (by rw [hc0len]; exact hj), hhit])
      · exact Or.inl
          (listGetD_set_ne _ _ _ _ _ (fun hc => hij hc.symm))
    have hsim := encdec_sim xs (List.replicate 64 pxZero) x 0
      ((List.replicate 64 pxZero).set (pxHash x) x) (14 + 1) data dl
      endMarker hc0len (by rw [List.length_set]; exact hc0len)
      hxsb hxb (by omega) (by simp) hrel (Or.inl hhit)
      hdrop1 (by rw [hdl]; simp only [List.length_cons]; omega)
    simp only [Nat.zero_add, List.replicate_zero, List.nil_append] at hsim
    rw [show (decInit : DecState) =
      ⟨List.replicate 64 pxZero, pxInit, 0, 14⟩ from rfl, decodeN_succ,
      hstep]
    dsimp only
    rw [hsim]
  · -- first opcode: the cache-miss emission for `x` against base
    -- `prev_r..prev_a = (0,0,0,255)`
    have hbody : (encSteps encInit (x :: xs)).2 =
        opBytes pxInit x ++
          (encLoop ⟨(List.replicate 64 pxZero).set (pxHash x) x, x, 0⟩
            xs).2 := by
      rw [show encInit =
          ⟨List.replicate 64 pxZero, prevPxInt, pxInit, 0⟩ from rfl,
        encSteps_cons]
      dsimp only
      rw [if_neg hx, if_neg hhit,
        show (⟨(List.replicate 64 pxZero).set (pxHash x) x, x, x, 0⟩ :
            EncStatePy) =
          toPy ⟨(List.replicate 64 pxZero).set (pxHash x) x, x, 0⟩ from rfl,
        encSteps_toPy xs
          ⟨(List.replicate 64 pxZero).set (pxHash x) x, x, 0⟩]
      simp
    rw [hbody] at hdrop hdl
    have hoplen := opBytes_length_pos pxInit x
    have hdl14 : 14 < dl := by
      rw [hdl]; simp only [List.length_append]; omega
    have hstep := decStep_opBytes data dl (List.replicate 64 pxZero) 14
      ((encLoop ⟨(List.replicate 64 pxZero).set (pxHash x) x, x, 0⟩ xs).2 ++
        endMarker) pxInit x (by decide) hxb
      (by rw [hdrop, List.append_assoc]) hdl14
    have hdrop2 := drop_eq_append_drop data (opBytes pxInit x) 14
      ((encLoop ⟨(List.replicate 64 pxZero).set (pxHash x) x, x, 0⟩ xs).2 ++
        endMarker) (by rw [hdrop, List.append_assoc])
    have hsync : ((List.replicate 64 pxZero).set (pxHash x) x).getD
        (pxHash x) pxZero = x :=
      listGetD_set_self _ _ _ _ (by rw [hc0len]; exact hj)
    have hsim := encdec_sim xs
      ((List.replicate 64 pxZero).set (pxHash x) x) x 0
      ((List.replicate 64 pxZero).set (pxHash x) x)
      (14 + (opBytes pxInit x).length) data dl endMarker
      (by rw [List.length_set]; exact hc0len)
      (by rw [List.length_set]; exact hc0len)
      hxsb hxb (by omega) (by simp) (fun i _ => Or.inl rfl) (Or.inl hsync)
      hdrop2 (by rw [hdl]; simp only [List.length_append]; omega)
    simp only [Nat.zero_add, List.replicate_zero, List.nil_append] at hsim
    rw [show (decInit : DecState) =
      ⟨List.replicate 64 pxZero, pxInit, 0, 14⟩ from rfl, decodeN_succ,
      hstep]
    dsimp only
    rw [hsim]

/-- C1 counterexample: a 1×1 image whose only pixel is `(255,0,0,0)` —
equal to `qoi.py`'s buggy initial `prev_px_int = (255 << 24)`.  The
encoder absorbs it into a run (body `C0`); the decoder, whose current
pixel starts at `(0,0,0,255)`, emits `(0,0,0,255)`: decoding the encoded
stream returns a different pixel buffer. -/
theorem c1_first_pixel_not_roundtrip :
    qoiEncode [255, 0, 0, 0] 1 1 4 0 =
      some (headerBytes 1 1 4 0 ++ [0xC0] ++ endMarker) ∧
    qoiDecode (headerBytes 1 1 4 0 ++ [0xC0] ++ endMarker) 0 =
      some ([0, 0, 0, 255], 1, 1, 4, 0) ∧
    ([0, 0, 0, 255] : List Nat) ≠ [255, 0, 0, 0] :=
  ⟨by decide, by decide, by decide⟩

/-- C1 (amended): **round-trip, channels = 4** (`qoi.py`).  For every
byte buffer `P` of length `width·height·4` with valid dimensions and
colorspace **whose first pixel is not `(255,0,0,0)`** — the value of
`qoi.py`'s buggy initial `prev_px_int`, whose run-absorption breaks the
round-trip (see the counterexample) — encoding succeeds and decoding
the encoded stream (with `force_channels = 0`) returns exactly
`(P, width, height, 4, colorspace)`. -/
theorem c1_roundtrip (P : List Nat) (w h cs : Nat)
    (hbytes : ∀ b ∈ P, b < 256)
    (hlen : P.length = w * h * 4)
    (hw : w ≠ 0) (hh : h ≠ 0) (hcs : cs ≤ 1)
    (hmax : h < QOI_PIXELS_MAX / w)
    (hfirst : P.take 4 ≠ [255, 0, 0, 0]) :
    ∃ E, qoiEncode P w h 4 cs = some E ∧
      qoiDecode E 0 = some (P, w, h, 4, cs) := by
  have hMeq : QOI_PIXELS_MAX = 400000000 := rfl
  -- dimension bounds: the validation keeps both below 2^32
  have hw32 : w < 2 ^ 32 := by
    have h2 : 2 ≤ QOI_PIXELS_MAX / w := by omega
    have hmul : 2 * w ≤ QOI_PIXELS_MAX :=
      (Nat.le_div_iff_mul_le (by omega : 0 < w)).mp h2
    omega
  have hh32 : h < 2 ^ 32 := by
    have hle : QOI_PIXELS_MAX / w ≤ QOI_PIXELS_MAX := Nat.div_le_self _ _
    omega
  -- split the buffer into pixels; the image is nonempty
  obtain ⟨L, hL, hLlen4⟩ := toPixels4_of_mod P (by omega)
  have hwh0 : w * h ≠ 0 := Nat.mul_ne_zero hw hh
  obtain ⟨x, xs, rfl⟩ : ∃ x xs, L = x :: xs := by
    cases L with
    | nil =>
      simp only [List.length_nil] at hLlen4
      exact absurd (by omega : w * h = 0) hwh0
    | cons a l => exact ⟨a, l, rfl⟩
  have hLlen : xs.length + 1 = w * h := by
    simp only [List.length_cons] at hLlen4
    omega
  have hflat : flatten4 (x :: xs) = P := flatten4_toPixels4 P _ hL
  have hLbytes : ∀ q ∈ (x :: xs), pxBytes q :=
    pxBytes_of_flatten4 _ (by rw [hflat]; exact hbytes)
  have hxb : pxBytes x := hLbytes x (List.mem_cons_self x xs)
  have hxsb : ∀ q ∈ xs, pxBytes q :=
    fun q hq => hLbytes q (List.mem_cons_of_mem x hq)
  -- the first pixel is not the buggy initial run-check value
  have hx : x ≠ prevPxInt := by
    intro hcontra
    apply hfirst
    rw [toPixels4_cons_inv P x xs hL, hcontra]
    rfl
  -- the encoded stream
  have hbodyb := encSteps_body_length (x :: xs) encInit
  rw [if_neg (by simp [encInit])] at hbodyb
  have hE : qoiEncode P w h 4 cs =
      some (headerBytes w h 4 cs ++
        ((encSteps encInit (x :: xs)).2 ++ endMarker)) := by
    unfold qoiEncode
    rw [if_neg (by push_neg; exact ⟨hw, hh, by omega, by omega, by omega,
      by omega⟩)]
    rw [if_pos rfl, hL]
    dsimp only
    rw [if_pos (by simp only [List.length_cons] at hbodyb; omega)]
    rw [List.append_assoc]
  refine ⟨headerBytes w h 4 cs ++
    ((encSteps encInit (x :: xs)).2 ++ endMarker), hE, ?_⟩
  -- decode it
  have hElen : (headerBytes w h 4 cs ++
      ((encSteps encInit (x :: xs)).2 ++ endMarker)).length =
      14 + (encSteps encInit (x :: xs)).2.length + 8 := by
    simp only [List.length_append, headerBytes_length]
    rfl
  have hdrop14 : (headerBytes w h 4 cs ++
      ((encSteps encInit (x :: xs)).2 ++ endMarker)).drop 14 =
      (encSteps encInit (x :: xs)).2 ++ endMarker := by
    have := drop_eq_append_drop
      (headerBytes w h 4 cs ++
        ((encSteps encInit (x :: xs)).2 ++ endMarker))
      (headerBytes w h 4 cs) 0
      ((encSteps encInit (x :: xs)).2 ++ endMarker)
      (by simp)
    rw [headerBytes_length] at this
    simpa using this
  have hfull := decodeN_encSteps_first x xs hx hxb hxsb
    (headerBytes w h 4 cs ++ ((encSteps encInit (x :: xs)).2 ++ endMarker))
    (14 + (encSteps encInit (x :: xs)).2.length) hdrop14 rfl
  unfold qoiDecode
  rw [if_neg (by rw [hElen]; omega)]
  rw [if_neg (by
    rw [header_take4, header_readBE32_w _ _ _ _ _ hw32,
      header_readBE32_h _ _ _ _ _ hh32]
    push_neg
    exact ⟨rfl, hw, hh⟩)]
  rw [header_readBE32_w _ _ _ _ _ hw32,
    header_readBE32_h _ _ _ _ _ hh32, header_getD_12, header_getD_13]
  rw [show (headerBytes w h 4 cs ++
      ((encSteps encInit (x :: xs)).2 ++ endMarker)).length - 8 =
      14 + (encSteps encInit (x :: xs)).2.length from by rw [hElen]; omega]
  rw [show w * h = xs.length + 1 from hLlen.symm]
  rw [hfull]
  simp only [assemble, if_neg (by decide : ¬(0 : Nat) ≠ 0), reduceIte]
  rw [hflat]
  rfl

/-- Witness for `c1_roundtrip` (amended): the 1×1 four-channel image
with pixel bytes `[1, 2, 3, 4]` (first pixel not `(255,0,0,0)`) and
colorspace `0` round-trips. -/
theorem c1_witness :
    (∀ b ∈ ([1, 2, 3, 4] : List Nat), b < 256) ∧
    ([1, 2, 3, 4] : List Nat).length = 1 * 1 * 4 ∧
    (1 : Nat) ≠ 0 ∧ (0 : Nat) ≤ 1 ∧ 1 < QOI_PIXELS_MAX / 1 ∧
    ([1, 2, 3, 4] : List Nat).take 4 ≠ [255, 0, 0, 0] ∧
    ∃ E, qoiEncode [1, 2, 3, 4] 1 1 4 0 = some E ∧
      qoiDecode E 0 = some ([1, 2, 3, 4], 1, 1, 4, 0) :=
  ⟨by decide, by decide, by decide, by decide, by decide, by decide,
    c1_roundtrip [1, 2, 3, 4] 1 1 0 (by decide) (by decide) (by decide)
      (by decide) (by decide) (by decide) (by decide)⟩
